import Mathlib

/-!
Shallow embedding of the cookbook engine implemented in
`src/backend/ts_template/devdonalds.ts`, together with proofs about it.

Modelling conventions:
* JavaScript `Map` objects are modelled as insertion-ordered association
  lists (`List (String × α)`): `get` finds the first (and, for lists built
  by `jsSet`, the only) binding; `set` overwrites an existing binding in
  place and otherwise appends; `delete` removes the binding.
* JavaScript numbers are modelled as integers (`ℤ`): the handlers only
  add, multiply and compare quantities, so the embedding is
  arithmetic-generic, and integer literals reduce well in the kernel.
* A cookbook entry's `type` string tag becomes an inductive constructor;
  the redundant `name` field stored inside each entry is dropped because
  the source never reads it (only the map key and `requiredItem.name`
  are read).
* The two unbounded `while` loops of the source (`isReachable` and the
  `/summary` expansion) are embedded with an explicit fuel parameter;
  exhausting the fuel models non-termination of the loop.
* `isReachable` dereferences `cookbook.get(src)` without an absence
  check; the `Res.fault` result models the runtime `TypeError` that the
  source would throw when `src` is absent.
-/

namespace Devdonalds

/-- Result of running a piece of code that can throw on an undefined
dereference (`fault`) or loop forever (`diverge`, reported when the
embedding's fuel runs out). -/
inductive Res (α : Type) where
  | ok (a : α)
  | fault
  | diverge
deriving DecidableEq, Repr

/-- Model of `Map.prototype.get`: first binding of the key, if any. -/
def jsGet {α : Type} (m : List (String × α)) (k : String) : Option α :=
  (m.find? (fun p => p.1 == k)).map (·.2)

/-- Model of `Map.prototype.has`. -/
def jsHas {α : Type} (m : List (String × α)) (k : String) : Bool :=
  (jsGet m k).isSome

/-- Model of `Map.prototype.set`: overwrite the first binding of the key in
place, otherwise append a new binding. -/
def jsSet {α : Type} (m : List (String × α)) (k : String) (v : α) : List (String × α) :=
  match m with
  | [] => [(k, v)]
  | p :: rest => if p.1 = k then (k, v) :: rest else p :: jsSet rest k v

/-- Model of `Map.prototype.delete`: remove the first binding of the key. -/
def jsDel {α : Type} (m : List (String × α)) (k : String) : List (String × α) :=
  match m with
  | [] => []
  | p :: rest => if p.1 = k then rest else p :: jsDel rest k

/-- Model of the `requiredItem` interface of the source: a required entry
name together with a quantity. -/
structure RequiredItem where
  name : String
  quantity : ℤ
deriving DecidableEq, Repr

/-- Model of the stored cookbook entries: the `type` tag `"recipe"` or
`"ingredient"` becomes a constructor. -/
inductive Entry where
  | recipe (requiredItems : List RequiredItem)
  | ingredient (cookTime : ℤ)
deriving DecidableEq, Repr

/-- The cookbook: `new Map<string, recipe | ingredient>()`. -/
abbrev Cookbook := List (String × Entry)

/-- Model of `Map.set` on the local `requiredItemsMap` of the `/entry`
handler, keyed by the item's `name` field. -/
def riSet (m : List RequiredItem) (it : RequiredItem) : List RequiredItem :=
  match m with
  | [] => [it]
  | x :: xs => if x.name = it.name then it :: xs else x :: riSet xs it

/-- Request body of the `/entry` endpoint, after JSON parsing.  The
`typeof` checks of the source are rendered moot by the typed fields;
JavaScript's falsy check `!entryName` on a string becomes an emptiness
check. -/
structure EntryInput where
  type : String
  name : String
  cookTime : ℤ
  requiredItems : List RequiredItem
deriving DecidableEq, Repr

/-- The distinct 400 responses of the `/entry` handler, one constructor per
`return res.status(400)` site. -/
inductive AddErr where
  | badType
  | duplicateName
  | badCookTime
  | emptyRequired
  | badItemName (n : String)
  | cycleDetected (n : String)
  | badQuantity (n : String)
deriving DecidableEq, Repr

/-- Inner `for` loop of the source's `isReachable` over
`currentItem.requiredItems`: returns `none` when `requiredItem.name ===
dest` (the `return true` of the source), otherwise the stack with every
required name that resolves to a recipe pushed on top. -/
def pushRequired (cb : Cookbook) (dest : String) :
    List RequiredItem → List (List RequiredItem) → Option (List (List RequiredItem))
  | [], stack => some stack
  | it :: rest, stack =>
    if it.name = dest then none
    else
      match jsGet cb it.name with
      | some (Entry.recipe reqs) => pushRequired cb dest rest (reqs :: stack)
      | _ => pushRequired cb dest rest stack

/-- The `while (stack.length > 0)` loop of the source's `isReachable`,
with fuel.  The head of the list is the top of the JavaScript stack. -/
def reachLoop (cb : Cookbook) (dest : String) :
    Nat → List (List RequiredItem) → Option Bool
  | _, [] => some false
  | 0, _ :: _ => none
  | fuel + 1, reqs :: stack =>
    match pushRequired cb dest reqs stack with
    | none => some true
    | some stack' => reachLoop cb dest fuel stack'

/-- Model of `isReachable(src, dest)`.  When `src` is absent the source
dereferences `undefined` (`item.type`), modelled by `Res.fault`. -/
def isReachable (cb : Cookbook) (fuel : Nat) (src dest : String) : Res Bool :=
  match jsGet cb src with
  | none => Res.fault
  | some (Entry.ingredient _) => Res.ok false
  | some (Entry.recipe reqs) =>
    match reachLoop cb dest fuel [reqs] with
    | none => Res.diverge
    | some b => Res.ok b

/-- The short-circuit condition `cookbook.has(requiredItemName) &&
isReachable(requiredItemName, entryName)` of the `/entry` handler. -/
def checkCycle (cb : Cookbook) (fuel : Nat) (itName entryName : String) : Res Bool :=
  if jsHas cb itName then isReachable cb fuel itName entryName else Res.ok false

/-- The `for (const requiredItem of requiredItems)` validation loop of the
`/entry` handler, accumulating the local `requiredItemsMap` in `acc`. -/
def addItemsLoop (cb : Cookbook) (fuel : Nat) (entryName : String) :
    List RequiredItem → List RequiredItem → Res (Except AddErr (List RequiredItem))
  | [], acc => Res.ok (Except.ok acc)
  | it :: rest, acc =>
    if it.name = "" ∨ it.name = entryName then
      Res.ok (Except.error (AddErr.badItemName it.name))
    else
      match checkCycle cb fuel it.name entryName with
      | Res.fault => Res.fault
      | Res.diverge => Res.diverge
      | Res.ok true => Res.ok (Except.error (AddErr.cycleDetected it.name))
      | Res.ok false =>
        if it.quantity ≤ 0 then Res.ok (Except.error (AddErr.badQuantity it.name))
        else addItemsLoop cb fuel entryName rest (riSet acc it)

/-- Model of the `/entry` handler.  The result pairs the HTTP outcome
(`Except.ok ()` for status 200) with the cookbook after the request. -/
def addEntry (cb : Cookbook) (fuel : Nat) (inp : EntryInput) :
    Res (Except AddErr Unit × Cookbook) :=
  if ¬ (inp.type = "recipe" ∨ inp.type = "ingredient") then
    Res.ok (Except.error AddErr.badType, cb)
  else if inp.name = "" ∨ jsHas cb inp.name then
    Res.ok (Except.error AddErr.duplicateName, cb)
  else if inp.type = "ingredient" then
    if inp.cookTime < 0 then Res.ok (Except.error AddErr.badCookTime, cb)
    else Res.ok (Except.ok (), jsSet cb inp.name (Entry.ingredient inp.cookTime))
  else
    if inp.requiredItems = [] then Res.ok (Except.error AddErr.emptyRequired, cb)
    else
      match addItemsLoop cb fuel inp.name inp.requiredItems [] with
      | Res.fault => Res.fault
      | Res.diverge => Res.diverge
      | Res.ok (Except.error e) => Res.ok (Except.error e, cb)
      | Res.ok (Except.ok reqs) =>
        Res.ok (Except.ok (), jsSet cb inp.name (Entry.recipe reqs))

/-- The distinct 400 responses of the `/summary` handler. -/
inductive SummErr where
  | notFound
  | notARecipe
  | recipeNotFound (n : String)
  | requiredNotFound (n : String)
deriving DecidableEq, Repr

/-- Success payload of the `/summary` handler. -/
structure Summary where
  name : String
  cookTime : ℤ
  ingredients : List (String × ℤ)
deriving DecidableEq, Repr

/-- State of the `/summary` expansion loop: the cookbook (read, never
written), the local `ingredients` map and the `recipes` worklist (head is
the top of the JavaScript stack). -/
structure SumSt where
  cb : Cookbook
  ingredients : List (String × ℤ)
  stack : List String
deriving DecidableEq, Repr

/-- JavaScript `x || 1` on a possibly-absent number: `undefined` and `0`
are falsy. -/
def jsOrOne (v : Option ℤ) : ℤ :=
  match v with
  | none => 1
  | some x => if x = 0 then 1 else x

/-- Inner `for (const requiredItem of ...)` loop of the `/summary`
handler: check presence, push the required name, accumulate
`quantity * (ingredients.get(recipeName) || 1)`. -/
def processItems (recipeName : String) :
    List RequiredItem → SumSt → Except SummErr SumSt
  | [], st => Except.ok st
  | it :: rest, st =>
    if ¬ jsHas st.cb it.name then Except.error (SummErr.requiredNotFound it.name)
    else
      processItems recipeName rest
        { st with
          stack := it.name :: st.stack
          ingredients :=
            jsSet st.ingredients it.name
              (((jsGet st.ingredients it.name).getD 0) +
                it.quantity * jsOrOne (jsGet st.ingredients recipeName)) }

/-- The `while (recipes.length > 0)` loop of the `/summary` handler, with
fuel.  Returns the final `ingredients` map paired with the cookbook. -/
def summarizeLoop : Nat → SumSt → Option (Except SummErr (List (String × ℤ)) × Cookbook)
  | _, ⟨cb, ing, []⟩ => some (Except.ok ing, cb)
  | 0, ⟨_, _, _ :: _⟩ => none
  | fuel + 1, ⟨cb, ing, rn :: rest⟩ =>
    match jsGet cb rn with
    | none => some (Except.error (SummErr.recipeNotFound rn), cb)
    | some (Entry.ingredient _) => summarizeLoop fuel ⟨cb, ing, rest⟩
    | some (Entry.recipe items) =>
      match processItems rn items ⟨cb, ing, rest⟩ with
      | Except.error e => some (Except.error e, cb)
      | Except.ok st' => summarizeLoop fuel ⟨st'.cb, jsDel st'.ingredients rn, st'.stack⟩

/-- Final aggregation loop of the `/summary` handler over
`ingredients.entries()`: keep only names resolving to ingredients, sum
`quantity * cookTime`. -/
def buildSummary (cb : Cookbook) (ing : List (String × ℤ)) : ℤ × List (String × ℤ) :=
  ing.foldl
    (fun acc p =>
      match jsGet cb p.1 with
      | some (Entry.ingredient ct) => (acc.1 + p.2 * ct, acc.2 ++ [(p.1, p.2)])
      | _ => acc)
    (0, [])

/-- Model of the `/summary` handler.  `none` models non-termination of the
expansion loop; the result pairs the HTTP outcome with the cookbook after
the request. -/
def summarize (cb : Cookbook) (fuel : Nat) (name : String) :
    Option (Except SummErr Summary × Cookbook) :=
  if name = "" ∨ ¬ jsHas cb name then some (Except.error SummErr.notFound, cb)
  else
    match jsGet cb name with
    | none => some (Except.error SummErr.notFound, cb)
    | some (Entry.ingredient _) => some (Except.error SummErr.notARecipe, cb)
    | some (Entry.recipe _) =>
      match summarizeLoop fuel ⟨cb, [(name, 1)], [name]⟩ with
      | none => none
      | some (Except.error e, cb') => some (Except.error e, cb')
      | some (Except.ok ing, cb') =>
        let s := buildSummary cb' ing
        some (Except.ok ⟨name, s.1, s.2⟩, cb')

/-! Model of the `parse_handwriting` helper (Task 1).  The JavaScript
regular-expression pipeline is rendered character by character:
`replace(/[-_ ]+/g, " ")` collapses runs of separators to one space,
`replace(/[^a-zA-Z ]+/g, "")` keeps only ASCII letters and spaces,
`toLowerCase`/`toUpperCase` act on the ASCII range (the only characters
present after filtering), `trim` strips spaces at both ends, and
`replace(/\b[A-Za-z]/g, upper)` uppercases each letter standing at a word
boundary, i.e. whose predecessor is not in `[A-Za-z0-9_]`. -/

/-- Characters collapsed by the first `replace`: `-`, `_` and space. -/
def isSepChar (c : Char) : Bool := c == '-' || c == '_' || c == ' '

/-- ASCII letters `[a-zA-Z]`. -/
def isAsciiLetter (c : Char) : Bool :=
  (decide ('a' ≤ c) && decide (c ≤ 'z')) || (decide ('A' ≤ c) && decide (c ≤ 'Z'))

/-- Lowercase ASCII letters. -/
def isLowerChar (c : Char) : Bool := decide ('a' ≤ c) && decide (c ≤ 'z')

/-- Uppercase ASCII letters. -/
def isUpperChar (c : Char) : Bool := decide ('A' ≤ c) && decide (c ≤ 'Z')

/-- Regular-expression word characters `[A-Za-z0-9_]`, deciding where
`\b` matches. -/
def isWordChar (c : Char) : Bool :=
  isAsciiLetter c || (decide ('0' ≤ c) && decide (c ≤ '9')) || c == '_'

/-- Characters surviving `replace(/[^a-zA-Z ]+/g, "")`. -/
def keepChar (c : Char) : Bool := isAsciiLetter c || c == ' '

/-- ASCII `toLowerCase` on one character. -/
def lowerA (c : Char) : Char :=
  if 'A' ≤ c ∧ c ≤ 'Z' then Char.ofNat (c.toNat + 32) else c

/-- ASCII `toUpperCase` on one character. -/
def upperA (c : Char) : Char :=
  if 'a' ≤ c ∧ c ≤ 'z' then Char.ofNat (c.toNat - 32) else c

/-- The first `replace`: each maximal run of separators becomes one
space; `prevSep` records whether the previous character was part of a
run. -/
def collapseGo : Bool → List Char → List Char
  | _, [] => []
  | prevSep, c :: cs =>
    if isSepChar c then
      (if prevSep then collapseGo true cs else ' ' :: collapseGo true cs)
    else c :: collapseGo false cs

/-- Left part of `trim` (the string holds only letters and spaces at this
point, so only spaces are stripped). -/
def trimL (l : List Char) : List Char := l.dropWhile (· == ' ')

/-- Model of `String.prototype.trim` on a letters-and-spaces string. -/
def trimChars (l : List Char) : List Char :=
  ((trimL l).reverse.dropWhile (· == ' ')).reverse

/-- The final `replace(/\b[A-Za-z]/g, char => char.toUpperCase())`:
uppercase every letter whose predecessor is not a word character
(`prevWord` is false at the start of the string). -/
def titleGo : Bool → List Char → List Char
  | _, [] => []
  | prevWord, c :: cs =>
    if isAsciiLetter c && !prevWord then upperA c :: titleGo true cs
    else c :: titleGo (isWordChar c) cs

/-- Model of `parse_handwriting`. -/
def parse_handwriting (s : String) : Option String :=
  let s1 := collapseGo false s.toList
  let s2 := (s1.filter keepChar).map lowerA
  let t := trimChars s2
  if t = [] then none else some (String.mk (titleGo false t))

/-- States of the title-case format checker: start of the string, inside
a word, expecting the start of a word after a separator space. -/
inductive FmtSt where
  | start0
  | inWord
  | afterSpace
deriving DecidableEq, Repr

/-- Checker for the claimed output format: words made of one uppercase
letter followed by lowercase letters, separated by single spaces (or, when
`multi` is set, by one or more spaces), with no leading or trailing
space and at least one word. -/
def fmtGo (multi : Bool) : FmtSt → List Char → Bool
  | st, [] => match st with | FmtSt.inWord => true | _ => false
  | FmtSt.start0, c :: cs => isUpperChar c && fmtGo multi FmtSt.inWord cs
  | FmtSt.afterSpace, c :: cs =>
    if multi && c == ' ' then fmtGo multi FmtSt.afterSpace cs
    else isUpperChar c && fmtGo multi FmtSt.inWord cs
  | FmtSt.inWord, c :: cs =>
    if c == ' ' then fmtGo multi FmtSt.afterSpace cs
    else isLowerChar c && fmtGo multi FmtSt.inWord cs

/-- Title-cased-words format of a whole string. -/
def wordsFormat (multi : Bool) (s : String) : Bool :=
  fmtGo multi FmtSt.start0 s.toList

/-- Claim C9 exactly as stated: `parse_handwriting` returns `none` exactly
when the input has no ASCII letters, and otherwise returns title-cased
words separated by single spaces whose letters are the input's letters
(up to case). -/
def ClaimC9Statement : Prop :=
  ∀ s : String,
    (parse_handwriting s = none ↔ s.toList.filter isAsciiLetter = []) ∧
    (∀ out, parse_handwriting s = some out →
      wordsFormat false out = true ∧
      (out.toList.filter isAsciiLetter).map lowerA =
        (s.toList.filter isAsciiLetter).map lowerA)

/-- Requirement edge of the dependency graph: `a` is a present recipe and
`b` is one of its required names (`b` need not be present). -/
def edgeTo (cb : Cookbook) (a b : String) : Prop :=
  ∃ reqs, jsGet cb a = some (Entry.recipe reqs) ∧ b ∈ reqs.map RequiredItem.name

/-- Acyclicity of the requirement graph over present recipes. -/
def Acyclic (cb : Cookbook) : Prop :=
  ∀ a, ¬ Relation.TransGen (edgeTo cb) a a

/-- Cookbook states reachable from the empty cookbook by successful
`/entry` requests. -/
inductive ReachableCb : Cookbook → Prop where
  | empty : ReachableCb []
  | step {cb cb' : Cookbook} {fuel : Nat} {inp : EntryInput} :
      ReachableCb cb → addEntry cb fuel inp = Res.ok (Except.ok (), cb') →
      ReachableCb cb'

/-- Well-formedness of an `/entry` request body, as assumed by the
specification's `AddEntry` contract (field-level validity is the caller's
responsibility there). -/
def WellFormed (inp : EntryInput) : Prop :=
  (inp.type = "recipe" ∨ inp.type = "ingredient") ∧
  inp.name ≠ "" ∧
  (inp.type = "ingredient" → 0 ≤ inp.cookTime) ∧
  (inp.type = "recipe" →
    inp.requiredItems ≠ [] ∧
    ∀ it ∈ inp.requiredItems, it.name ≠ "" ∧ it.name ≠ inp.name ∧ 0 < it.quantity)

/-- Property of a stack entry of `isReachable`'s loop: some required item
either is `dest` itself or starts a requirement chain through present
recipes that reaches `dest`. -/
def ReachesVia (cb : Cookbook) (reqs : List RequiredItem) (dest : String) : Prop :=
  ∃ it ∈ reqs, it.name = dest ∨ Relation.TransGen (edgeTo cb) it.name dest

/-! Basic lemmas about the JavaScript `Map` model. -/

theorem jsGet_nil {α : Type} (k : String) : jsGet ([] : List (String × α)) k = none := rfl

theorem jsGet_jsSet_self {α : Type} (m : List (String × α)) (k : String) (v : α) :
    jsGet (jsSet m k v) k = some v := by
  induction m with
  | nil => simp [jsGet, jsSet]
  | cons p rest ih =>
    by_cases h : p.1 = k
    · simp [jsGet, jsSet, h]
    · simpa [jsGet, jsSet, h] using ih

theorem jsGet_jsSet_ne {α : Type} (m : List (String × α)) (k k' : String) (v : α)
    (h : k' ≠ k) : jsGet (jsSet m k v) k' = jsGet m k' := by
  induction m with
  | nil => simp [jsGet, jsSet, Ne.symm h]
  | cons p rest ih =>
    obtain ⟨a, b⟩ := p
    by_cases hp : a = k
    · subst hp
      simp [jsGet, jsSet, Ne.symm h]
    · by_cases hp' : a = k'
      · subst hp'
        show jsGet (jsSet ((a, b) :: rest) k v) a = jsGet ((a, b) :: rest) a
        unfold jsSet
        rw [if_neg hp]
        simp [jsGet]
      · simpa [jsGet, jsSet, hp, hp'] using ih

theorem jsGet_eq_none_of_not_jsHas {α : Type} {m : List (String × α)} {k : String}
    (h : jsHas m k = false) : jsGet m k = none := by
  unfold jsHas at h
  exact Option.not_isSome_iff_eq_none.mp (by simp [h])

theorem jsHas_of_jsGet_eq_some {α : Type} {m : List (String × α)} {k : String} {v : α}
    (h : jsGet m k = some v) : jsHas m k = true := by
  simp [jsHas, h]

theorem mem_of_jsGet_eq_some {α : Type} {m : List (String × α)} {k : String} {v : α}
    (h : jsGet m k = some v) : (k, v) ∈ m := by
  unfold jsGet at h
  obtain ⟨p, hp, hv⟩ := Option.map_eq_some'.mp h
  have hk : p.1 = k := by simpa using List.find?_some hp
  have hmem := List.mem_of_find?_eq_some hp
  obtain ⟨a, b⟩ := p
  simp only at hk hv
  subst hk; subst hv
  exact hmem

/-! Inversion lemmas for the `/entry` validation loop. -/

theorem isReachable_ne_fault {cb : Cookbook} {fuel : Nat} {src dest : String}
    (h : jsHas cb src = true) : isReachable cb fuel src dest ≠ Res.fault := by
  unfold jsHas at h
  obtain ⟨e, he⟩ := Option.isSome_iff_exists.mp h
  unfold isReachable
  rw [he]
  cases e with
  | ingredient ct => simp
  | recipe reqs => rcases hl : reachLoop cb dest fuel [reqs] with _ | b <;> simp [hl]

theorem checkCycle_ne_fault (cb : Cookbook) (fuel : Nat) (itName entryName : String) :
    checkCycle cb fuel itName entryName ≠ Res.fault := by
  unfold checkCycle
  by_cases h : jsHas cb itName = true
  · rw [if_pos (by simpa using h)]
    exact isReachable_ne_fault h
  · rw [if_neg (by simpa using h)]
    simp

theorem addItemsLoop_ne_fault (cb : Cookbook) (fuel : Nat) (en : String)
    (items acc : List RequiredItem) :
    addItemsLoop cb fuel en items acc ≠ Res.fault := by
  induction items generalizing acc with
  | nil => simp [addItemsLoop]
  | cons it rest ih =>
    unfold addItemsLoop
    by_cases h1 : it.name = "" ∨ it.name = en
    · simp [h1]
    · rw [if_neg h1]
      rcases hc : checkCycle cb fuel it.name en with b | _ | _
      · cases b
        · by_cases hq : it.quantity ≤ 0
          · simp [hq]
          · simpa [hq] using ih (riSet acc it)
        · simp
      · exact absurd hc (checkCycle_ne_fault cb fuel it.name en)
      · simp

theorem addItemsLoop_ok_of (cb : Cookbook) (fuel : Nat) (en : String)
    (items : List RequiredItem) (acc : List RequiredItem)
    (h : ∀ it ∈ items, ¬(it.name = "" ∨ it.name = en) ∧
      checkCycle cb fuel it.name en = Res.ok false ∧ ¬ it.quantity ≤ 0) :
    addItemsLoop cb fuel en items acc = Res.ok (Except.ok (items.foldl riSet acc)) := by
  induction items generalizing acc with
  | nil => simp [addItemsLoop]
  | cons it rest ih =>
    obtain ⟨h1, h2, h3⟩ := h it (List.mem_cons_self it rest)
    unfold addItemsLoop
    rw [if_neg h1, h2, if_neg h3]
    simpa using ih (riSet acc it) (fun x hx => h x (List.mem_cons_of_mem it hx))

theorem addItemsLoop_cycle_of {cb : Cookbook} {fuel : Nat} {en : String}
    {items : List RequiredItem} (acc : List RequiredItem)
    (hwf : ∀ it ∈ items, it.name ≠ "" ∧ it.name ≠ en ∧ 0 < it.quantity)
    (hnd : ∀ it ∈ items, ∃ b, checkCycle cb fuel it.name en = Res.ok b)
    (hex : ∃ it ∈ items, checkCycle cb fuel it.name en = Res.ok true) :
    ∃ n, addItemsLoop cb fuel en items acc =
      Res.ok (Except.error (AddErr.cycleDetected n)) := by
  induction items generalizing acc with
  | nil => obtain ⟨it, hit, _⟩ := hex; exact absurd hit (List.not_mem_nil it)
  | cons it rest ih =>
    obtain ⟨hn1, hn2, hq⟩ := hwf it (List.mem_cons_self it rest)
    have h1 : ¬(it.name = "" ∨ it.name = en) := by simp [hn1, hn2]
    obtain ⟨b, hb⟩ := hnd it (List.mem_cons_self it rest)
    unfold addItemsLoop
    rw [if_neg h1, hb]
    cases b with
    | true => exact ⟨it.name, rfl⟩
    | false =>
      rw [if_neg (not_le.mpr hq)]
      have hex' : ∃ x ∈ rest, checkCycle cb fuel x.name en = Res.ok true := by
        obtain ⟨x, hx, hxt⟩ := hex
        rcases List.mem_cons.mp hx with rfl | hx'
        · rw [hb] at hxt; cases hxt
        · exact ⟨x, hx', hxt⟩
      exact ih (riSet acc it) (fun x hx => hwf x (List.mem_cons_of_mem it hx))
        (fun x hx => hnd x (List.mem_cons_of_mem it hx)) hex'

theorem addItemsLoop_err_cycle {cb : Cookbook} {fuel : Nat} {en : String}
    {items : List RequiredItem} {acc : List RequiredItem} {e : AddErr}
    (hwf : ∀ it ∈ items, it.name ≠ "" ∧ it.name ≠ en ∧ 0 < it.quantity)
    (h : addItemsLoop cb fuel en items acc = Res.ok (Except.error e)) :
    ∃ n, e = AddErr.cycleDetected n := by
  induction items generalizing acc with
  | nil => simp [addItemsLoop] at h
  | cons it rest ih =>
    obtain ⟨hn1, hn2, hq⟩ := hwf it (List.mem_cons_self it rest)
    have h1 : ¬(it.name = "" ∨ it.name = en) := by simp [hn1, hn2]
    unfold addItemsLoop at h
    rw [if_neg h1] at h
    rcases hc : checkCycle cb fuel it.name en with b | _ | _ <;> rw [hc] at h
    · cases b with
      | true => exact ⟨it.name, by injection h with h'; injection h' with h''; exact (by cases h''; rfl)⟩
      | false =>
        rw [if_neg (not_le.mpr hq)] at h
        exact ih (fun x hx => hwf x (List.mem_cons_of_mem it hx)) h
    · cases h
    · cases h

theorem addItemsLoop_ok_inv {cb : Cookbook} {fuel : Nat} {en : String}
    {items acc reqs : List RequiredItem}
    (h : addItemsLoop cb fuel en items acc = Res.ok (Except.ok reqs)) :
    reqs = items.foldl riSet acc ∧
    ∀ it ∈ items, it.name ≠ "" ∧ it.name ≠ en ∧
      (jsHas cb it.name = true → isReachable cb fuel it.name en = Res.ok false) := by
  induction items generalizing acc with
  | nil =>
    simp only [addItemsLoop, Res.ok.injEq, Except.ok.injEq] at h
    exact ⟨h.symm ▸ rfl, by simp⟩
  | cons it rest ih =>
    unfold addItemsLoop at h
    by_cases h1 : it.name = "" ∨ it.name = en
    · rw [if_pos h1] at h; cases h
    · rw [if_neg h1] at h
      rcases hc : checkCycle cb fuel it.name en with b | _ | _ <;> rw [hc] at h
      · cases b with
        | true => cases h
        | false =>
          by_cases hq : it.quantity ≤ 0
          · rw [if_pos hq] at h; cases h
          · rw [if_neg hq] at h
            obtain ⟨hfold, hrest⟩ := ih h
            refine ⟨hfold, fun x hx => ?_⟩
            rcases List.mem_cons.mp hx with rfl | hx'
            · refine ⟨fun hx0 => h1 (Or.inl hx0), fun hxe => h1 (Or.inr hxe), fun hhas => ?_⟩
              unfold checkCycle at hc
              rwa [if_pos (by simpa using hhas)] at hc
            · exact hrest x hx'
      · cases h
      · cases h

/-! Lemmas about the local `requiredItemsMap` (last write wins). -/

theorem mem_riSet {m : List RequiredItem} {it x : RequiredItem}
    (h : x ∈ riSet m it) : x ∈ m ∨ x = it := by
  induction m with
  | nil => simpa [riSet] using h
  | cons y ys ih =>
    unfold riSet at h
    by_cases hy : y.name = it.name
    · rw [if_pos hy] at h
      rcases List.mem_cons.mp h with heq | h'
      · exact Or.inr heq
      · exact Or.inl (List.mem_cons_of_mem y h')
    · rw [if_neg hy] at h
      rcases List.mem_cons.mp h with heq | h'
      · exact Or.inl (by rw [heq]; exact List.mem_cons_self y ys)
      · rcases ih h' with h'' | h''
        · exact Or.inl (List.mem_cons_of_mem y h'')
        · exact Or.inr h''

theorem find?_riSet (m : List RequiredItem) (it : RequiredItem) (n : String) :
    (riSet m it).find? (fun x => x.name == n) =
      if it.name = n then some it else m.find? (fun x => x.name == n) := by
  induction m with
  | nil =>
    by_cases hn : it.name = n <;> simp [riSet, hn]
  | cons y ys ih =>
    unfold riSet
    by_cases hy : y.name = it.name
    · rw [if_pos hy]
      by_cases hn : it.name = n
      · rw [if_pos hn]
        exact List.find?_cons_of_pos _ (by simp [hn])
      · rw [if_neg hn, List.find?_cons_of_neg _ (by simp [hn]),
          List.find?_cons_of_neg _ (by simp [hy, hn])]
    · rw [if_neg hy]
      by_cases hyn : y.name = n
      · have hn : ¬ it.name = n := fun hc => hy (hyn.trans hc.symm)
        rw [if_neg hn, List.find?_cons_of_pos _ (by simp [hyn]),
          List.find?_cons_of_pos _ (by simp [hyn])]
      · rw [List.find?_cons_of_neg _ (by simp [hyn]), ih]
        by_cases hn : it.name = n
        · rw [if_pos hn, if_pos hn]
        · rw [if_neg hn, if_neg hn, List.find?_cons_of_neg _ (by simp [hyn])]

theorem names_riSet (m : List RequiredItem) (it : RequiredItem) :
    (riSet m it).map RequiredItem.name =
      if it.name ∈ m.map RequiredItem.name then m.map RequiredItem.name
      else m.map RequiredItem.name ++ [it.name] := by
  induction m with
  | nil => simp [riSet]
  | cons y ys ih =>
    unfold riSet
    by_cases hy : y.name = it.name
    · rw [if_pos hy]
      simp only [List.map_cons]
      rw [if_pos (List.mem_cons.mpr (Or.inl hy.symm)), hy]
    · rw [if_neg hy]
      simp only [List.map_cons]
      rw [ih]
      have hne : it.name ≠ y.name := fun hc => hy hc.symm
      by_cases hmem : it.name ∈ ys.map RequiredItem.name
      · rw [if_pos hmem, if_pos (List.mem_cons.mpr (Or.inr hmem))]
      · rw [if_neg hmem, if_neg (by simp [hne, hmem])]
        simp

theorem nodup_names_riSet {m : List RequiredItem} (it : RequiredItem)
    (h : (m.map RequiredItem.name).Nodup) : ((riSet m it).map RequiredItem.name).Nodup := by
  rw [names_riSet]
  by_cases hmem : it.name ∈ m.map RequiredItem.name
  · simpa [hmem] using h
  · rw [if_neg hmem, List.nodup_append]
    exact ⟨h, List.nodup_singleton _,
      fun x hx hx2 => hmem ((List.mem_singleton.mp hx2) ▸ hx)⟩

theorem find?_foldl_riSet (items : List RequiredItem) (acc : List RequiredItem) (n : String) :
    ((items.foldl riSet acc).find? (fun x => x.name == n)) =
      ((items.reverse.find? (fun x => x.name == n)).or
        (acc.find? (fun x => x.name == n))) := by
  induction items generalizing acc with
  | nil => simp
  | cons it rest ih =>
    show ((rest.foldl riSet (riSet acc it)).find? (fun x => x.name == n)) = _
    rw [ih]
    have : (riSet acc it).find? (fun x => x.name == n) =
        (if it.name = n then some it else none).or (acc.find? (fun x => x.name == n)) := by
      rw [find?_riSet]
      by_cases hn : it.name = n <;> simp [hn]
    rw [this, ← Option.or_assoc]
    congr 1
    simp only [List.reverse_cons, List.find?_append]
    congr 1
    by_cases hn : it.name = n <;> simp [hn]

theorem nodup_names_foldl_riSet (items : List RequiredItem) {acc : List RequiredItem}
    (h : (acc.map RequiredItem.name).Nodup) :
    (((items.foldl riSet acc)).map RequiredItem.name).Nodup := by
  induction items generalizing acc with
  | nil => simpa using h
  | cons it rest ih => exact ih (nodup_names_riSet it h)

theorem mem_foldl_riSet {items acc : List RequiredItem} {x : RequiredItem}
    (h : x ∈ items.foldl riSet acc) : x ∈ acc ∨ x ∈ items := by
  induction items generalizing acc with
  | nil => exact Or.inl (by simpa using h)
  | cons it rest ih =>
    rcases ih h with h' | h'
    · rcases mem_riSet h' with h'' | h''
      · exact Or.inl h''
      · exact Or.inr (h'' ▸ List.mem_cons_self it rest)
    · exact Or.inr (List.mem_cons_of_mem it h')

/-! Branch-selection lemmas for the `/entry` handler. -/

theorem addEntry_dup_eq {cb : Cookbook} {fuel : Nat} {inp : EntryInput}
    (h1 : inp.type = "recipe" ∨ inp.type = "ingredient")
    (h2 : inp.name = "" ∨ jsHas cb inp.name = true) :
    addEntry cb fuel inp = Res.ok (Except.error AddErr.duplicateName, cb) := by
  unfold addEntry
  rw [if_neg (by simp [h1]), if_pos (by simpa using h2)]

theorem addEntry_ingredient_eq {cb : Cookbook} {fuel : Nat} {inp : EntryInput}
    (h1 : inp.type = "ingredient") (h2 : inp.name ≠ "") (h3 : jsHas cb inp.name = false)
    (h4 : ¬ inp.cookTime < 0) :
    addEntry cb fuel inp =
      Res.ok (Except.ok (), jsSet cb inp.name (Entry.ingredient inp.cookTime)) := by
  unfold addEntry
  rw [if_neg (by simp [h1]), if_neg (by simp [h2, h3]), if_pos h1, if_neg h4]

theorem addEntry_recipe_eq {cb : Cookbook} {fuel : Nat} {inp : EntryInput}
    (h1 : inp.type = "recipe") (h2 : inp.name ≠ "") (h3 : jsHas cb inp.name = false)
    (h4 : inp.requiredItems ≠ []) :
    addEntry cb fuel inp =
      (match addItemsLoop cb fuel inp.name inp.requiredItems [] with
        | Res.fault => Res.fault
        | Res.diverge => Res.diverge
        | Res.ok (Except.error e) => Res.ok (Except.error e, cb)
        | Res.ok (Except.ok reqs) =>
          Res.ok (Except.ok (), jsSet cb inp.name (Entry.recipe reqs))) := by
  unfold addEntry
  rw [if_neg (by simp [h1]), if_neg (by simp [h2, h3]), if_neg (by rw [h1]; decide),
    if_neg h4]

theorem addEntry_result_shape (cb : Cookbook) (fuel : Nat) (inp : EntryInput) :
    (∃ e, addEntry cb fuel inp = Res.ok (Except.error e, cb)) ∨
    (∃ cb', addEntry cb fuel inp = Res.ok (Except.ok (), cb')) ∨
    addEntry cb fuel inp = Res.diverge := by
  unfold addEntry
  by_cases h1 : ¬(inp.type = "recipe" ∨ inp.type = "ingredient")
  · rw [if_pos h1]; exact Or.inl ⟨_, rfl⟩
  · rw [if_neg h1]
    by_cases h2 : inp.name = "" ∨ jsHas cb inp.name
    · rw [if_pos h2]; exact Or.inl ⟨_, rfl⟩
    · rw [if_neg h2]
      by_cases h3 : inp.type = "ingredient"
      · rw [if_pos h3]
        by_cases h4 : inp.cookTime < 0
        · rw [if_pos h4]; exact Or.inl ⟨_, rfl⟩
        · rw [if_neg h4]; exact Or.inr (Or.inl ⟨_, rfl⟩)
      · rw [if_neg h3]
        by_cases h5 : inp.requiredItems = []
        · rw [if_pos h5]; exact Or.inl ⟨_, rfl⟩
        · rw [if_neg h5]
          rcases hl : addItemsLoop cb fuel inp.name inp.requiredItems [] with r | _ | _
          · cases r with
            | error e => exact Or.inl ⟨e, rfl⟩
            | ok reqs => exact Or.inr (Or.inl ⟨_, rfl⟩)
          · exact absurd hl (addItemsLoop_ne_fault cb fuel inp.name inp.requiredItems [])
          · exact Or.inr (Or.inr rfl)

theorem addEntry_err_cb {cb : Cookbook} {fuel : Nat} {inp : EntryInput} {e : AddErr}
    {cb' : Cookbook} (h : addEntry cb fuel inp = Res.ok (Except.error e, cb')) : cb' = cb := by
  rcases addEntry_result_shape cb fuel inp with ⟨e', hs⟩ | ⟨cb'', hs⟩ | hs
  · rw [h] at hs
    simp only [Res.ok.injEq, Prod.mk.injEq] at hs
    exact hs.2
  · rw [h] at hs
    simp at hs
  · rw [h] at hs
    cases hs

theorem addEntry_ne_fault (cb : Cookbook) (fuel : Nat) (inp : EntryInput) :
    addEntry cb fuel inp ≠ Res.fault := by
  rcases addEntry_result_shape cb fuel inp with ⟨e', hs⟩ | ⟨cb'', hs⟩ | hs <;>
    rw [hs] <;> simp

/-! State preservation of the `/summary` loop: the cookbook is read-only. -/

theorem processItems_ok_cb {rn : String} {items : List RequiredItem} {st st' : SumSt}
    (h : processItems rn items st = Except.ok st') : st'.cb = st.cb := by
  induction items generalizing st with
  | nil =>
    simp only [processItems, Except.ok.injEq] at h
    rw [← h]
  | cons it rest ih =>
    unfold processItems at h
    by_cases hh : ¬ jsHas st.cb it.name
    · rw [if_pos hh] at h; cases h
    · rw [if_neg hh] at h
      have hh' := ih h
      exact hh'

theorem summarizeLoop_cb {fuel : Nat} {st : SumSt} {r : Except SummErr (List (String × ℤ))}
    {cb' : Cookbook} (h : summarizeLoop fuel st = some (r, cb')) : cb' = st.cb := by
  induction fuel generalizing st with
  | zero =>
    obtain ⟨cb, ing, stack⟩ := st
    cases stack with
    | nil =>
      simp only [summarizeLoop, Option.some.injEq, Prod.mk.injEq] at h
      exact h.2.symm
    | cons rn rest => cases h
  | succ fuel ih =>
    obtain ⟨cb, ing, stack⟩ := st
    cases stack with
    | nil =>
      simp only [summarizeLoop, Option.some.injEq, Prod.mk.injEq] at h
      exact h.2.symm
    | cons rn rest =>
      unfold summarizeLoop at h
      rcases hg : jsGet cb rn with _ | e
      · simp only [hg, Option.some.injEq, Prod.mk.injEq] at h
        exact h.2.symm
      · cases e with
        | ingredient ct =>
          simp only [hg] at h
          have hh := ih h
          exact hh
        | recipe items =>
          simp only [hg] at h
          rcases hp : processItems rn items ⟨cb, ing, rest⟩ with e' | st'
          · simp only [hp, Option.some.injEq, Prod.mk.injEq] at h
            exact h.2.symm
          · simp only [hp] at h
            have hh := ih h
            have hc := processItems_ok_cb hp
            exact hh.trans hc

theorem summarize_cb {cb : Cookbook} {fuel : Nat} {name : String}
    {r : Except SummErr Summary} {cb' : Cookbook}
    (h : summarize cb fuel name = some (r, cb')) : cb' = cb := by
  unfold summarize at h
  by_cases h1 : name = "" ∨ ¬ jsHas cb name
  · rw [if_pos h1] at h
    simp only [Option.some.injEq, Prod.mk.injEq] at h
    exact h.2.symm
  · rw [if_neg h1] at h
    rcases hg : jsGet cb name with _ | e
    · simp only [hg, Option.some.injEq, Prod.mk.injEq] at h
      exact h.2.symm
    · cases e with
      | ingredient ct =>
        simp only [hg, Option.some.injEq, Prod.mk.injEq] at h
        exact h.2.symm
      | recipe reqs =>
        simp only [hg] at h
        rcases hl : summarizeLoop fuel ⟨cb, [(name, 1)], [name]⟩ with _ | p
        · simp only [hl] at h
          cases h
        · obtain ⟨rr, cb''⟩ := p
          cases rr with
          | error e =>
            simp only [hl, Option.some.injEq, Prod.mk.injEq] at h
            exact h.2 ▸ summarizeLoop_cb hl
          | ok ing =>
            simp only [hl, Option.some.injEq, Prod.mk.injEq] at h
            exact h.2 ▸ summarizeLoop_cb hl

theorem checkCycle_absent {cb : Cookbook} {fuel : Nat} {n en : String}
    (h : jsHas cb n = false) : checkCycle cb fuel n en = Res.ok false := by
  unfold checkCycle
  rw [if_neg (by simp [h])]

/-- Claim C10: `isReachable` dereferences `cookbook.get(src)` without an
absence check, so it faults whenever `src` is not in the catalog; but its
only call site inside the `/entry` handler is guarded by
`cookbook.has(requiredItemName)`, so the handler never faults, on any
catalog. -/
theorem claim_C10 :
    (∀ (cb : Cookbook) (fuel : Nat) (src dest : String),
      jsHas cb src = false → isReachable cb fuel src dest = Res.fault) ∧
    (∀ (cb : Cookbook) (fuel : Nat) (inp : EntryInput),
      addEntry cb fuel inp ≠ Res.fault) := by
  constructor
  · intro cb fuel src dest h
    unfold isReachable
    rw [jsGet_eq_none_of_not_jsHas h]
  · intro cb fuel inp
    exact addEntry_ne_fault cb fuel inp

/-- Witness for C10 at concrete inputs: `isReachable` faults on the empty
catalog, and a concrete `/entry` request never faults. -/
theorem claim_C10_witness :
    isReachable [] 0 "x" "y" = Res.fault ∧
    addEntry [] 0 ⟨"ingredient", "x", 1, []⟩ ≠ Res.fault :=
  ⟨claim_C10.1 [] 0 "x" "y" (by decide), claim_C10.2 [] 0 ⟨"ingredient", "x", 1, []⟩⟩

/-- Claim C4: whenever `/entry` returns a 400 error the catalog is returned
unchanged (the only `cookbook.set` is on the success path), and `/summary`
never mutates the catalog at all (it only reads it). -/
theorem claim_C4 :
    (∀ (cb : Cookbook) (fuel : Nat) (inp : EntryInput) (e : AddErr) (cb' : Cookbook),
      addEntry cb fuel inp = Res.ok (Except.error e, cb') → cb' = cb) ∧
    (∀ (cb : Cookbook) (fuel : Nat) (name : String) (r : Except SummErr Summary)
      (cb' : Cookbook), summarize cb fuel name = some (r, cb') → cb' = cb) := by
  constructor
  · intro cb fuel inp e cb' h
    exact addEntry_err_cb h
  · intro cb fuel name r cb' h
    exact summarize_cb h

/-- Witness for C4: a rejected duplicate insertion and a failing summary
both leave a concrete catalog unchanged. -/
theorem claim_C4_witness :
    ([("x", Entry.ingredient 1)] : Cookbook) = [("x", Entry.ingredient 1)] ∧
    ([("y", Entry.ingredient 2)] : Cookbook) = [("y", Entry.ingredient 2)] :=
  ⟨claim_C4.1 [("x", Entry.ingredient 1)] 0 ⟨"ingredient", "x", 2, []⟩
      AddErr.duplicateName [("x", Entry.ingredient 1)] (by rfl),
    claim_C4.2 [("y", Entry.ingredient 2)] 0 "z" (Except.error SummErr.notFound)
      [("y", Entry.ingredient 2)] (by rfl)⟩

/-- Claim C3: for a well-formed entry, `/entry` fails with the
duplicate-name error when the name is taken; a well-formed ingredient with
a fresh name is inserted; for a well-formed recipe with a fresh name whose
cycle checks (`cookbook.has(r) && isReachable(r, entryName)`) all return a
boolean, the request fails with the cycle error exactly when some required
name is present and reachable back, and otherwise inserts the recipe; and
concretely, inserting recipe `x` requiring `y` and then recipe `y`
requiring `x` yields the cycle error with `x`'s definition unchanged. -/
theorem claim_C3 :
    (∀ (cb : Cookbook) (fuel : Nat) (inp : EntryInput),
      WellFormed inp → jsHas cb inp.name = true →
      addEntry cb fuel inp = Res.ok (Except.error AddErr.duplicateName, cb)) ∧
    (∀ (cb : Cookbook) (fuel : Nat) (inp : EntryInput),
      WellFormed inp → jsHas cb inp.name = false → inp.type = "ingredient" →
      addEntry cb fuel inp =
        Res.ok (Except.ok (), jsSet cb inp.name (Entry.ingredient inp.cookTime))) ∧
    (∀ (cb : Cookbook) (fuel : Nat) (inp : EntryInput),
      WellFormed inp → jsHas cb inp.name = false → inp.type = "recipe" →
      (∀ it ∈ inp.requiredItems, ∃ b, checkCycle cb fuel it.name inp.name = Res.ok b) →
      ((∃ it ∈ inp.requiredItems, checkCycle cb fuel it.name inp.name = Res.ok true) →
        ∃ n, addEntry cb fuel inp = Res.ok (Except.error (AddErr.cycleDetected n), cb)) ∧
      ((∀ it ∈ inp.requiredItems, checkCycle cb fuel it.name inp.name = Res.ok false) →
        ∃ reqs, addEntry cb fuel inp =
          Res.ok (Except.ok (), jsSet cb inp.name (Entry.recipe reqs)))) ∧
    (addEntry [] 5 ⟨"recipe", "x", 0, [⟨"y", 2⟩]⟩ =
        Res.ok (Except.ok (), [("x", Entry.recipe [⟨"y", 2⟩])]) ∧
      addEntry [("x", Entry.recipe [⟨"y", 2⟩])] 5 ⟨"recipe", "y", 0, [⟨"x", 1⟩]⟩ =
        Res.ok (Except.error (AddErr.cycleDetected "x"), [("x", Entry.recipe [⟨"y", 2⟩])])) := by
  refine ⟨?_, ?_, ?_, by rfl, by rfl⟩
  · intro cb fuel inp hwf hdup
    exact addEntry_dup_eq hwf.1 (Or.inr hdup)
  · intro cb fuel inp hwf hfresh hing
    exact addEntry_ingredient_eq hing hwf.2.1 hfresh (not_lt.mpr (hwf.2.2.1 hing))
  · intro cb fuel inp hwf hfresh hrec hnd
    obtain ⟨hne, hitems⟩ := hwf.2.2.2 hrec
    constructor
    · intro hex
      obtain ⟨n, hm⟩ := addItemsLoop_cycle_of [] hitems hnd hex
      refine ⟨n, ?_⟩
      rw [addEntry_recipe_eq hrec hwf.2.1 hfresh hne, hm]
    · intro hall
      refine ⟨inp.requiredItems.foldl riSet [], ?_⟩
      have hm := addItemsLoop_ok_of cb fuel inp.name inp.requiredItems []
        (fun it hit => ⟨by simp [(hitems it hit).1, (hitems it hit).2.1],
          hall it hit, not_le.mpr (hitems it hit).2.2⟩)
      rw [addEntry_recipe_eq hrec hwf.2.1 hfresh hne, hm]

/-- Witness for C3: inserting a well-formed ingredient with a fresh name
into a concrete catalog succeeds, and a duplicate insertion is rejected. -/
theorem claim_C3_witness :
    addEntry [("x", Entry.ingredient 1)] 0 ⟨"ingredient", "y", 2, []⟩ =
      Res.ok (Except.ok (), [("x", Entry.ingredient 1), ("y", Entry.ingredient 2)]) ∧
    addEntry [("x", Entry.ingredient 1)] 0 ⟨"ingredient", "x", 2, []⟩ =
      Res.ok (Except.error AddErr.duplicateName, [("x", Entry.ingredient 1)]) :=
  ⟨claim_C3.2.1 [("x", Entry.ingredient 1)] 0 ⟨"ingredient", "y", 2, []⟩
      (by unfold WellFormed; decide) (by decide) rfl,
    claim_C3.1 [("x", Entry.ingredient 1)] 0 ⟨"ingredient", "x", 2, []⟩
      (by unfold WellFormed; decide) (by decide)⟩

/-- Claim C6: a well-formed recipe with a fresh name whose required names
are all absent from the catalog is inserted successfully (forward
references are legal and no cycle check runs for absent names), and any
400 failure of a well-formed fresh-named recipe is the cycle error, so
absence of a required name never causes a failure. -/
theorem claim_C6 :
    (∀ (cb : Cookbook) (fuel : Nat) (inp : EntryInput),
      WellFormed inp → inp.type = "recipe" → jsHas cb inp.name = false →
      (∀ it ∈ inp.requiredItems, jsHas cb it.name = false) →
      addEntry cb fuel inp = Res.ok (Except.ok (),
        jsSet cb inp.name (Entry.recipe (inp.requiredItems.foldl riSet [])))) ∧
    (∀ (cb : Cookbook) (fuel : Nat) (inp : EntryInput) (e : AddErr) (cb' : Cookbook),
      WellFormed inp → inp.type = "recipe" → jsHas cb inp.name = false →
      addEntry cb fuel inp = Res.ok (Except.error e, cb') →
      ∃ n, e = AddErr.cycleDetected n) := by
  constructor
  · intro cb fuel inp hwf hrec hfresh habsent
    obtain ⟨hne, hitems⟩ := hwf.2.2.2 hrec
    have hm := addItemsLoop_ok_of cb fuel inp.name inp.requiredItems []
      (fun it hit => ⟨by simp [(hitems it hit).1, (hitems it hit).2.1],
        checkCycle_absent (habsent it hit), not_le.mpr (hitems it hit).2.2⟩)
    rw [addEntry_recipe_eq hrec hwf.2.1 hfresh hne, hm]
  · intro cb fuel inp e cb' hwf hrec hfresh h
    obtain ⟨hne, hitems⟩ := hwf.2.2.2 hrec
    rw [addEntry_recipe_eq hrec hwf.2.1 hfresh hne] at h
    rcases hl : addItemsLoop cb fuel inp.name inp.requiredItems [] with r | _ | _
    · cases r with
      | error e' =>
        rw [hl] at h
        simp only [Res.ok.injEq, Prod.mk.injEq, Except.error.injEq] at h
        exact h.1 ▸ addItemsLoop_err_cycle hitems hl
      | ok reqs =>
        rw [hl] at h
        simp at h
    · exact absurd hl (addItemsLoop_ne_fault cb fuel inp.name inp.requiredItems [])
    · rw [hl] at h
      cases h

/-- Witness for C6: a recipe whose single requirement is absent is
accepted on the empty catalog. -/
theorem claim_C6_witness :
    addEntry [] 3 ⟨"recipe", "r", 0, [⟨"m", 2⟩]⟩ =
      Res.ok (Except.ok (), [("r", Entry.recipe [⟨"m", 2⟩])]) :=
  claim_C6.1 [] 3 ⟨"recipe", "r", 0, [⟨"m", 2⟩]⟩
    (by unfold WellFormed; decide) rfl (by decide) (by decide)

/-- Claim C8: when a well-formed recipe (possibly repeating a required
name) passes its per-item checks, the insertion succeeds and stores the
deduplicated requirement list: each mentioned name occurs exactly once and
the stored item for a name is the last occurrence of that name in the
request list (last write wins). -/
theorem claim_C8 :
    ∀ (cb : Cookbook) (fuel : Nat) (inp : EntryInput),
      WellFormed inp → inp.type = "recipe" → jsHas cb inp.name = false →
      (∀ it ∈ inp.requiredItems, checkCycle cb fuel it.name inp.name = Res.ok false) →
      addEntry cb fuel inp = Res.ok (Except.ok (),
        jsSet cb inp.name (Entry.recipe (inp.requiredItems.foldl riSet []))) ∧
      ((inp.requiredItems.foldl riSet []).map RequiredItem.name).Nodup ∧
      (∀ n ∈ inp.requiredItems.map RequiredItem.name,
        ((inp.requiredItems.foldl riSet []).map RequiredItem.name).count n = 1) ∧
      (∀ n : String, (inp.requiredItems.foldl riSet []).find? (fun x => x.name == n) =
        inp.requiredItems.reverse.find? (fun x => x.name == n)) := by
  intro cb fuel inp hwf hrec hfresh hall
  obtain ⟨hne, hitems⟩ := hwf.2.2.2 hrec
  have hfind : ∀ n : String, (inp.requiredItems.foldl riSet []).find? (fun x => x.name == n) =
      inp.requiredItems.reverse.find? (fun x => x.name == n) := by
    intro n
    rw [find?_foldl_riSet]
    simp
  have hnodup : ((inp.requiredItems.foldl riSet []).map RequiredItem.name).Nodup :=
    nodup_names_foldl_riSet inp.requiredItems (by simp)
  refine ⟨?_, hnodup, ?_, hfind⟩
  · have hm := addItemsLoop_ok_of cb fuel inp.name inp.requiredItems []
      (fun it hit => ⟨by simp [(hitems it hit).1, (hitems it hit).2.1],
        hall it hit, not_le.mpr (hitems it hit).2.2⟩)
    rw [addEntry_recipe_eq hrec hwf.2.1 hfresh hne, hm]
  · intro n hn
    obtain ⟨it, hit, hname⟩ := List.mem_map.mp hn
    have hsome : (inp.requiredItems.reverse.find? (fun x => x.name == n)).isSome := by
      rw [List.find?_isSome]
      exact ⟨it, List.mem_reverse.mpr hit, by simp [hname]⟩
    obtain ⟨it2, hit2⟩ := Option.isSome_iff_exists.mp hsome
    have hmem2 : n ∈ (inp.requiredItems.foldl riSet []).map RequiredItem.name := by
      have := hfind n
      rw [hit2] at this
      have hname2 : it2.name = n := by simpa using List.find?_some this
      exact List.mem_map.mpr ⟨it2, List.mem_of_find?_eq_some this, hname2⟩
    exact List.count_eq_one_of_mem hnodup hmem2

/-- Witness for C8 at a concrete duplicate-name request: the stored list
keeps only the last quantity for the repeated name. -/
theorem claim_C8_witness :
    addEntry [] 2 ⟨"recipe", "r", 0, [⟨"a", 1⟩, ⟨"a", 5⟩]⟩ =
      Res.ok (Except.ok (), [("r", Entry.recipe [⟨"a", 5⟩])]) :=
  (claim_C8 [] 2 ⟨"recipe", "r", 0, [⟨"a", 1⟩, ⟨"a", 5⟩]⟩
    (by unfold WellFormed; decide) rfl (by decide)
    (by intro it hit; exact checkCycle_absent (by fin_cases hit <;> decide))).1

/-! Soundness of the reachability DFS: a `false` answer means there is no
requirement chain. -/

theorem transGen_edgeTo_headProps {cb : Cookbook} {x dest : String}
    (h : Relation.TransGen (edgeTo cb) x dest) :
    ∃ reqs, jsGet cb x = some (Entry.recipe reqs) ∧ ReachesVia cb reqs dest := by
  obtain ⟨y, hxy, hy⟩ := Relation.TransGen.head'_iff.mp h
  obtain ⟨reqs, hget, hmem⟩ := hxy
  obtain ⟨it, hit, hname⟩ := List.mem_map.mp hmem
  refine ⟨reqs, hget, it, hit, ?_⟩
  rcases Relation.reflTransGen_iff_eq_or_transGen.mp hy with heq | htr
  · exact Or.inl (hname.trans heq.symm)
  · exact Or.inr (hname ▸ htr)

theorem jsHas_of_transGen {cb : Cookbook} {x dest : String}
    (h : Relation.TransGen (edgeTo cb) x dest) : jsHas cb x = true := by
  obtain ⟨reqs, hget, _⟩ := transGen_edgeTo_headProps h
  exact jsHas_of_jsGet_eq_some hget

theorem pushRequired_inv {cb : Cookbook} {dest : String} {items : List RequiredItem}
    {stack stack' : List (List RequiredItem)}
    (h : pushRequired cb dest items stack = some stack') :
    (∀ s ∈ stack, s ∈ stack') ∧
    (∀ it ∈ items, it.name ≠ dest) ∧
    (∀ it ∈ items, ∀ r2, jsGet cb it.name = some (Entry.recipe r2) → r2 ∈ stack') := by
  induction items generalizing stack with
  | nil =>
    simp only [pushRequired, Option.some.injEq] at h
    subst h
    exact ⟨fun s hs => hs, by simp, by simp⟩
  | cons it rest ih =>
    unfold pushRequired at h
    by_cases hd : it.name = dest
    · rw [if_pos hd] at h; cases h
    · rw [if_neg hd] at h
      rcases hg : jsGet cb it.name with _ | e
      · rw [hg] at h
        obtain ⟨h1, h2, h3⟩ := ih h
        refine ⟨h1, ?_, ?_⟩
        · intro x hx
          rcases List.mem_cons.mp hx with heq | hx'
          · rw [heq]; exact hd
          · exact h2 x hx'
        · intro x hx r2 hr2
          rcases List.mem_cons.mp hx with heq | hx'
          · rw [heq] at hr2; rw [hr2] at hg; cases hg
          · exact h3 x hx' r2 hr2
      · cases e with
        | ingredient ct =>
          rw [hg] at h
          obtain ⟨h1, h2, h3⟩ := ih h
          refine ⟨h1, ?_, ?_⟩
          · intro x hx
            rcases List.mem_cons.mp hx with heq | hx'
            · rw [heq]; exact hd
            · exact h2 x hx'
          · intro x hx r2 hr2
            rcases List.mem_cons.mp hx with heq | hx'
            · rw [heq] at hr2; rw [hr2] at hg; cases hg
            · exact h3 x hx' r2 hr2
        | recipe reqs =>
          rw [hg] at h
          obtain ⟨h1, h2, h3⟩ := ih h
          refine ⟨fun s hs => h1 s (List.mem_cons_of_mem reqs hs), ?_, ?_⟩
          · intro x hx
            rcases List.mem_cons.mp hx with heq | hx'
            · rw [heq]; exact hd
            · exact h2 x hx'
          · intro x hx r2 hr2
            rcases List.mem_cons.mp hx with heq | hx'
            · rw [heq] at hr2
              rw [hr2] at hg
              injection hg with hg'
              injection hg' with hg''
              exact hg'' ▸ h1 reqs (List.mem_cons_self reqs stack)
            · exact h3 x hx' r2 hr2

theorem reachLoop_false_sound {cb : Cookbook} {dest : String} {fuel : Nat}
    {stack : List (List RequiredItem)}
    (h : reachLoop cb dest fuel stack = some false) :
    ∀ reqs ∈ stack, ¬ ReachesVia cb reqs dest := by
  induction fuel generalizing stack with
  | zero =>
    cases stack with
    | nil => simp
    | cons reqs rest => cases h
  | succ fuel ih =>
    cases stack with
    | nil => simp
    | cons reqs rest =>
      unfold reachLoop at h
      rcases hp : pushRequired cb dest reqs rest with _ | stack'
      · rw [hp] at h; cases h
      · rw [hp] at h
        obtain ⟨h1, h2, h3⟩ := pushRequired_inv hp
        have hsafe := ih h
        intro rq hrq hvia
        rcases List.mem_cons.mp hrq with heq | hrq'
        · subst heq
          obtain ⟨it, hit, hcase⟩ := hvia
          rcases hcase with heq' | htr
          · exact h2 it hit heq'
          · obtain ⟨r2, hget, hvia2⟩ := transGen_edgeTo_headProps htr
            exact hsafe r2 (h3 it hit r2 hget) hvia2
        · exact hsafe rq (h1 rq hrq') hvia

theorem isReachable_false_sound {cb : Cookbook} {fuel : Nat} {src dest : String}
    (h : isReachable cb fuel src dest = Res.ok false) :
    ¬ Relation.TransGen (edgeTo cb) src dest := by
  intro htr
  obtain ⟨reqs, hget, hvia⟩ := transGen_edgeTo_headProps htr
  unfold isReachable at h
  simp only [hget] at h
  rcases hl : reachLoop cb dest fuel [reqs] with _ | b
  · simp only [hl] at h
    cases h
  · simp only [hl] at h
    injection h with h'
    subst h'
    exact reachLoop_false_sound hl reqs (List.mem_cons_self reqs []) hvia

/-! Effect of an insertion on the requirement graph. -/

theorem edgeTo_jsSet_cases {cb : Cookbook} {name : String} {e : Entry} {a b : String}
    (h : edgeTo (jsSet cb name e) a b) :
    (a = name ∧ ∃ reqs, e = Entry.recipe reqs ∧ b ∈ reqs.map RequiredItem.name) ∨
    (a ≠ name ∧ edgeTo cb a b) := by
  obtain ⟨reqs, hget, hmem⟩ := h
  by_cases ha : a = name
  · subst ha
    rw [jsGet_jsSet_self] at hget
    injection hget with hget'
    exact Or.inl ⟨rfl, reqs, hget', hmem⟩
  · rw [jsGet_jsSet_ne cb name a e ha] at hget
    exact Or.inr ⟨ha, reqs, hget, hmem⟩

theorem edgeTo_mono_jsSet {cb : Cookbook} {name : String} {e : Entry}
    (hfresh : jsHas cb name = false) {a b : String} (h : edgeTo cb a b) :
    edgeTo (jsSet cb name e) a b := by
  obtain ⟨reqs, hget, hmem⟩ := h
  have ha : a ≠ name := by
    intro hc
    rw [hc, jsGet_eq_none_of_not_jsHas hfresh] at hget
    cases hget
  exact ⟨reqs, by rw [jsGet_jsSet_ne cb name a e ha]; exact hget, hmem⟩

theorem acyclic_insert_ingredient {cb : Cookbook} {name : String} {ct : ℤ}
    (hacyc : Acyclic cb) : Acyclic (jsSet cb name (Entry.ingredient ct)) := by
  intro a hcycle
  refine hacyc a (Relation.TransGen.mono ?_ hcycle)
  intro x y hxy
  rcases edgeTo_jsSet_cases hxy with ⟨_, reqs, heq, _⟩ | ⟨_, he⟩
  · cases heq
  · exact he

theorem acyclic_insert_recipe {cb : Cookbook} {name : String} {reqs : List RequiredItem}
    (hacyc : Acyclic cb) (hfresh : jsHas cb name = false)
    (hself : ∀ b ∈ reqs.map RequiredItem.name, b ≠ name)
    (hcheck : ∀ b ∈ reqs.map RequiredItem.name, ¬ Relation.TransGen (edgeTo cb) b name) :
    Acyclic (jsSet cb name (Entry.recipe reqs)) := by
  intro a hcycle
  have hfirstArrival : ∀ u, Relation.ReflTransGen (edgeTo (jsSet cb name (Entry.recipe reqs))) u name →
      u = name ∨ Relation.TransGen (edgeTo cb) u name := by
    intro u hu
    induction hu using Relation.ReflTransGen.head_induction_on with
    | refl => exact Or.inl rfl
    | head hxc hcb ih =>
      rename_i x c
      by_cases hx : x = name
      · exact Or.inl hx
      · have hxc' : edgeTo cb x c := by
          rcases edgeTo_jsSet_cases hxc with ⟨hxn, _⟩ | ⟨_, he⟩
          · exact absurd hxn hx
          · exact he
        rcases ih with heq | htr
        · exact Or.inr (Relation.TransGen.single (heq ▸ hxc'))
        · exact Or.inr (Relation.TransGen.head hxc' htr)
  have hdecomp : ∀ u v, Relation.TransGen (edgeTo (jsSet cb name (Entry.recipe reqs))) u v →
      Relation.TransGen (edgeTo cb) u v ∨
      (Relation.ReflTransGen (edgeTo (jsSet cb name (Entry.recipe reqs))) u name ∧
        ∃ r ∈ reqs.map RequiredItem.name, Relation.ReflTransGen (edgeTo cb) r v) := by
    intro u v huv
    induction huv with
    | single hstep =>
      rename_i v'
      rcases edgeTo_jsSet_cases hstep with ⟨hun, reqs2, heq, hmem⟩ | ⟨hun, he⟩
      · injection heq with heq'
        subst heq'
        exact Or.inr ⟨hun ▸ Relation.ReflTransGen.refl, v', hmem, Relation.ReflTransGen.refl⟩
      · exact Or.inl (Relation.TransGen.single he)
    | tail hT hE ih =>
      rename_i w v'
      rcases edgeTo_jsSet_cases hE with ⟨hwn, reqs2, heq, hmem⟩ | ⟨hwn, he⟩
      · injection heq with heq'
        subst heq'
        rcases ih with htr | ⟨hRT, r, hr, hRTr⟩
        · refine Or.inr ⟨?_, v', hmem, Relation.ReflTransGen.refl⟩
          exact hwn ▸ (Relation.TransGen.mono (fun x y hxy => edgeTo_mono_jsSet hfresh hxy) htr).to_reflTransGen
        · exfalso
          rcases Relation.reflTransGen_iff_eq_or_transGen.mp (hwn ▸ hRTr) with heq2 | htr2
          · exact hself r hr heq2.symm
          · exact hcheck r hr htr2
      · rcases ih with htr | ⟨hRT, r, hr, hRTr⟩
        · exact Or.inl (Relation.TransGen.tail htr he)
        · exact Or.inr ⟨hRT, r, hr, Relation.ReflTransGen.tail hRTr he⟩
  rcases hdecomp a a hcycle with htr | ⟨hRT, r, hr, hRTr⟩
  · exact hacyc a htr
  · have hrname : Relation.ReflTransGen (edgeTo (jsSet cb name (Entry.recipe reqs))) r name := by
      refine Relation.ReflTransGen.trans ?_ hRT
      exact Relation.ReflTransGen.mono (fun x y hxy => edgeTo_mono_jsSet hfresh hxy) hRTr
    rcases hfirstArrival r hrname with heq | htr
    · exact hself r hr heq
    · exact hcheck r hr htr

/-! Inversion of a successful `/entry` request, packaging exactly the
facts needed for the acyclicity invariant. -/

theorem addEntry_ok_inv {cb cb' : Cookbook} {fuel : Nat} {inp : EntryInput}
    (h : addEntry cb fuel inp = Res.ok (Except.ok (), cb')) :
    inp.name ≠ "" ∧ jsHas cb inp.name = false ∧
    ((∃ ct, cb' = jsSet cb inp.name (Entry.ingredient ct)) ∨
      (∃ reqs, cb' = jsSet cb inp.name (Entry.recipe reqs) ∧
        ∀ b ∈ reqs.map RequiredItem.name, b ≠ inp.name ∧
          ¬ Relation.TransGen (edgeTo cb) b inp.name)) := by
  unfold addEntry at h
  by_cases h1 : ¬(inp.type = "recipe" ∨ inp.type = "ingredient")
  · rw [if_pos h1] at h; cases h
  · rw [if_neg h1] at h
    by_cases h2 : inp.name = "" ∨ jsHas cb inp.name
    · rw [if_pos h2] at h; cases h
    · rw [if_neg h2] at h
      push_neg at h2
      obtain ⟨hname, hfresh⟩ := h2
      have hfresh' : jsHas cb inp.name = false := by simpa using hfresh
      refine ⟨hname, hfresh', ?_⟩
      by_cases h3 : inp.type = "ingredient"
      · rw [if_pos h3] at h
        by_cases h4 : inp.cookTime < 0
        · rw [if_pos h4] at h; cases h
        · rw [if_neg h4] at h
          simp only [Res.ok.injEq, Prod.mk.injEq] at h
          exact Or.inl ⟨inp.cookTime, h.2.symm⟩
      · rw [if_neg h3] at h
        by_cases h5 : inp.requiredItems = []
        · rw [if_pos h5] at h; cases h
        · rw [if_neg h5] at h
          rcases hl : addItemsLoop cb fuel inp.name inp.requiredItems [] with r | _ | _
          · cases r with
            | error e => rw [hl] at h; simp at h
            | ok reqs =>
              rw [hl] at h
              simp only [Res.ok.injEq, Prod.mk.injEq] at h
              obtain ⟨hfold, hitems⟩ := addItemsLoop_ok_inv hl
              refine Or.inr ⟨reqs, h.2.symm, ?_⟩
              intro b hb
              obtain ⟨x, hx, hxname⟩ := List.mem_map.mp hb
              have hxmem : x ∈ inp.requiredItems := by
                rcases mem_foldl_riSet (hfold ▸ hx) with hc | hc
                · cases hc
                · exact hc
              obtain ⟨hx1, hx2, hx3⟩ := hitems x hxmem
              refine ⟨hxname ▸ hx2, ?_⟩
              intro htr
              have hbhas : jsHas cb b = true := jsHas_of_transGen htr
              exact isReachable_false_sound (hxname ▸ hx3 (hxname ▸ hbhas)) (hxname ▸ htr)
          · rw [hl] at h; cases h
          · rw [hl] at h; cases h

theorem reachable_acyclic : ∀ cb : Cookbook, ReachableCb cb → Acyclic cb := by
  intro cb hreach
  induction hreach with
  | empty =>
    intro a hcycle
    obtain ⟨b, hab, _⟩ := Relation.TransGen.head'_iff.mp hcycle
    obtain ⟨reqs, hget, _⟩ := hab
    cases hget
  | step hprev heq ih =>
    obtain ⟨hname, hfresh, hcases⟩ := addEntry_ok_inv heq
    rcases hcases with ⟨ct, rfl⟩ | ⟨reqs, rfl, hprops⟩
    · exact acyclic_insert_ingredient ih
    · exact acyclic_insert_recipe ih hfresh (fun b hb => (hprops b hb).1)
        (fun b hb => (hprops b hb).2)

/-- Claim C2: every catalog reachable from the empty catalog by successful
`/entry` requests has an acyclic requirement graph, for every insertion
order including forward references. -/
theorem claim_C2 : ∀ cb : Cookbook, ReachableCb cb → Acyclic cb :=
  reachable_acyclic

/-- Witness for C2: a concrete reachable catalog is acyclic. -/
theorem claim_C2_witness : Acyclic [("l", Entry.ingredient 1)] := by
  have h : addEntry [] 0 ⟨"ingredient", "l", 1, []⟩ =
      Res.ok (Except.ok (), [("l", Entry.ingredient 1)]) := rfl
  exact claim_C2 _ (ReachableCb.step ReachableCb.empty h)

/-! Termination of the two unbounded loops on acyclic catalogs.  The
requirement graph restricted to present recipes is finite; acyclicity
makes following requirement edges well-founded, which yields a weight
function `twt` bounding the number of loop iterations. -/

/-- Requirement edges reversed, so that recursion along requirement
chains is recursion along this relation. -/
def rflip (cb : Cookbook) (a b : String) : Prop := edgeTo cb b a

/-- Names of the catalog that resolve to recipes (the only nodes with
outgoing requirement edges). -/
abbrev PresentRecipe (cb : Cookbook) : Type :=
  {x : String // ∃ reqs, jsGet cb x = some (Entry.recipe reqs)}

/-- The reversed requirement edge restricted to present recipes. -/
def rflipSub (cb : Cookbook) (a b : PresentRecipe cb) : Prop := edgeTo cb b.val a.val

instance presentRecipeFinite (cb : Cookbook) : Finite (PresentRecipe cb) := by
  have hsub : {x : String | ∃ reqs, jsGet cb x = some (Entry.recipe reqs)} ⊆
      {x : String | x ∈ cb.map Prod.fst} := by
    rintro x ⟨reqs, hx⟩
    exact List.mem_map.mpr ⟨(x, Entry.recipe reqs), mem_of_jsGet_eq_some hx, rfl⟩
  have hfin : {x : String | ∃ reqs, jsGet cb x = some (Entry.recipe reqs)}.Finite :=
    Set.Finite.subset ((cb.map Prod.fst).finite_toSet) hsub
  exact hfin.to_subtype

/-- Following requirement edges is well-founded on an acyclic catalog. -/
def wfRflip (cb : Cookbook) (hacyc : Acyclic cb) : WellFounded (rflip cb) := by
  have hirr : ∀ a : PresentRecipe cb, ¬ Relation.TransGen (rflipSub cb) a a := by
    intro a ha
    have hlift : Relation.TransGen (fun x y : String => edgeTo cb y x) a.val a.val :=
      Relation.TransGen.lift Subtype.val (fun _ _ hxy => hxy) ha
    exact hacyc a.val (Relation.transGen_swap.mp hlift)
  haveI : IsIrrefl (PresentRecipe cb) (Relation.TransGen (rflipSub cb)) := ⟨hirr⟩
  have hwfT : WellFounded (Relation.TransGen (rflipSub cb)) :=
    Finite.wellFounded_of_trans_of_irrefl _
  have hwfSub : WellFounded (rflipSub cb) :=
    Subrelation.wf (fun h => Relation.TransGen.single h) hwfT
  have hactriv : ∀ y : String, ¬(∃ reqs, jsGet cb y = some (Entry.recipe reqs)) →
      Acc (rflip cb) y := by
    intro y hy
    constructor
    intro z hz
    obtain ⟨reqs, hget, _⟩ := hz
    exact absurd ⟨reqs, hget⟩ hy
  have hmain : ∀ p : PresentRecipe cb, Acc (rflip cb) p.val := by
    intro p
    refine @WellFounded.induction _ _ hwfSub (fun q => Acc (rflip cb) q.val) p ?_
    intro q ih
    constructor
    intro z hz
    by_cases hp : ∃ reqs, jsGet cb z = some (Entry.recipe reqs)
    · exact ih ⟨z, hp⟩ hz
    · exact hactriv z hp
  constructor
  intro x
  by_cases hp : ∃ reqs, jsGet cb x = some (Entry.recipe reqs)
  · exact hmain ⟨x, hp⟩
  · exact hactriv x hp

/-- Required names of a catalog entry (empty for ingredients and absent
names). -/
def twtReq (cb : Cookbook) (x : String) : List String :=
  match jsGet cb x with
  | some (Entry.recipe reqs) => reqs.map RequiredItem.name
  | _ => []

theorem mem_twtReq_edge {cb : Cookbook} {x y : String} (h : y ∈ twtReq cb x) :
    edgeTo cb x y := by
  unfold twtReq at h
  rcases hg : jsGet cb x with _ | e
  · rw [hg] at h; cases h
  · cases e with
    | ingredient ct => rw [hg] at h; cases h
    | recipe reqs =>
      rw [hg] at h
      exact ⟨reqs, hg, h⟩

/-- Weight of a node: the size of its full expansion tree.  Defined by
well-founded recursion along requirement edges. -/
def twt (cb : Cookbook) (hacyc : Acyclic cb) : String → Nat :=
  (wfRflip cb hacyc).fix (fun x rec =>
    1 + ((twtReq cb x).attach.map (fun y => rec y.val (mem_twtReq_edge y.property))).sum)

theorem twt_eq (cb : Cookbook) (hacyc : Acyclic cb) (x : String) :
    twt cb hacyc x = 1 + ((twtReq cb x).map (twt cb hacyc)).sum := by
  have h : twt cb hacyc x =
      1 + ((twtReq cb x).attach.map (fun y => twt cb hacyc y.val)).sum := by
    show (wfRflip cb hacyc).fix _ x = _
    rw [WellFounded.fix_eq]
    rfl
  rw [h, List.attach_map_val (twtReq cb x) (twt cb hacyc)]

theorem twt_pos (cb : Cookbook) (hacyc : Acyclic cb) (x : String) :
    1 ≤ twt cb hacyc x := by
  rw [twt_eq]
  exact Nat.le_add_right 1 _

theorem twt_recipe (cb : Cookbook) (hacyc : Acyclic cb) {x : String}
    {reqs : List RequiredItem} (hget : jsGet cb x = some (Entry.recipe reqs)) :
    twt cb hacyc x = 1 + (reqs.map (fun it => twt cb hacyc it.name)).sum := by
  rw [twt_eq]
  unfold twtReq
  rw [hget, List.map_map]
  rfl

/-- Fuel bound for `isReachable`'s loop: total weight of the stack. -/
def reachMeasure (cb : Cookbook) (hacyc : Acyclic cb)
    (stack : List (List RequiredItem)) : Nat :=
  (stack.map (fun reqs => 1 + (reqs.map (fun it => twt cb hacyc it.name)).sum)).sum

theorem pushRequired_measure {cb : Cookbook} (hacyc : Acyclic cb) {dest : String}
    {items : List RequiredItem} {stack stack' : List (List RequiredItem)}
    (h : pushRequired cb dest items stack = some stack') :
    reachMeasure cb hacyc stack' ≤
      reachMeasure cb hacyc stack + (items.map (fun it => twt cb hacyc it.name)).sum := by
  induction items generalizing stack with
  | nil =>
    simp only [pushRequired, Option.some.injEq] at h
    subst h
    simp
  | cons it rest ih =>
    unfold pushRequired at h
    by_cases hd : it.name = dest
    · rw [if_pos hd] at h; cases h
    · rw [if_neg hd] at h
      rcases hg : jsGet cb it.name with _ | e
      · rw [hg] at h
        have := ih h
        simp only [List.map_cons, List.sum_cons]
        omega
      · cases e with
        | ingredient ct =>
          rw [hg] at h
          have := ih h
          simp only [List.map_cons, List.sum_cons]
          omega
        | recipe reqs2 =>
          rw [hg] at h
          have hih := ih h
          have htw : twt cb hacyc it.name =
              1 + (reqs2.map (fun x => twt cb hacyc x.name)).sum :=
            twt_recipe cb hacyc hg
          have hms : reachMeasure cb hacyc (reqs2 :: stack) =
              (1 + (reqs2.map (fun x => twt cb hacyc x.name)).sum) +
                reachMeasure cb hacyc stack := by
            simp [reachMeasure]
          rw [hms] at hih
          simp only [List.map_cons, List.sum_cons]
          omega

theorem reachLoop_total {cb : Cookbook} (hacyc : Acyclic cb) (dest : String) :
    ∀ (fuel : Nat) (stack : List (List RequiredItem)),
      reachMeasure cb hacyc stack ≤ fuel → reachLoop cb dest fuel stack ≠ none := by
  intro fuel
  induction fuel with
  | zero =>
    intro stack hm
    cases stack with
    | nil => simp [reachLoop]
    | cons reqs rest =>
      exfalso
      have : 1 ≤ reachMeasure cb hacyc (reqs :: rest) := by
        simp only [reachMeasure, List.map_cons, List.sum_cons]
        omega
      omega
  | succ fuel ih =>
    intro stack hm
    cases stack with
    | nil => simp [reachLoop]
    | cons reqs rest =>
      unfold reachLoop
      rcases hp : pushRequired cb dest reqs rest with _ | stack'
      · simp
      · simp only []
        have hpm := pushRequired_measure hacyc hp
        have hms : reachMeasure cb hacyc (reqs :: rest) =
            (1 + (reqs.map (fun it => twt cb hacyc it.name)).sum) +
              reachMeasure cb hacyc rest := by
          simp [reachMeasure]
        apply ih stack'
        omega

theorem isReachable_total {cb : Cookbook} (hacyc : Acyclic cb) (src dest : String)
    (hhas : jsHas cb src = true) :
    ∃ fuel b, isReachable cb fuel src dest = Res.ok b := by
  obtain ⟨e, hget⟩ := Option.isSome_iff_exists.mp hhas
  cases e with
  | ingredient ct =>
    exact ⟨0, false, by simp [isReachable, hget]⟩
  | recipe reqs =>
    have htot := reachLoop_total hacyc dest (reachMeasure cb hacyc [reqs]) [reqs]
      (Nat.le_refl _)
    rcases hrl : reachLoop cb dest (reachMeasure cb hacyc [reqs]) [reqs] with _ | b
    · exact absurd hrl htot
    · exact ⟨reachMeasure cb hacyc [reqs], b, by simp [isReachable, hget, hrl]⟩

/-- Fuel bound for the `/summary` loop: total weight of the worklist. -/
def summMeasure (cb : Cookbook) (hacyc : Acyclic cb) (stack : List String) : Nat :=
  (stack.map (twt cb hacyc)).sum

theorem processItems_measure {cb : Cookbook} (hacyc : Acyclic cb) {rn : String}
    {items : List RequiredItem} {ing : List (String × ℤ)} {stack : List String}
    {st' : SumSt} (h : processItems rn items ⟨cb, ing, stack⟩ = Except.ok st') :
    st'.cb = cb ∧
    summMeasure cb hacyc st'.stack ≤
      summMeasure cb hacyc stack + (items.map (fun it => twt cb hacyc it.name)).sum := by
  induction items generalizing ing stack with
  | nil =>
    simp only [processItems, Except.ok.injEq] at h
    subst h
    simp
  | cons it rest ih =>
    unfold processItems at h
    by_cases hh : ¬ jsHas cb it.name
    · rw [if_pos hh] at h; cases h
    · rw [if_neg hh] at h
      have hih := ih h
      refine ⟨hih.1, ?_⟩
      have := hih.2
      simp only [summMeasure, List.map_cons, List.sum_cons] at this ⊢
      omega

theorem summarizeLoop_total {cb : Cookbook} (hacyc : Acyclic cb) :
    ∀ (fuel : Nat) (ing : List (String × ℤ)) (stack : List String),
      summMeasure cb hacyc stack ≤ fuel → summarizeLoop fuel ⟨cb, ing, stack⟩ ≠ none := by
  intro fuel
  induction fuel with
  | zero =>
    intro ing stack hm
    cases stack with
    | nil => simp [summarizeLoop]
    | cons rn rest =>
      exfalso
      have h1 := twt_pos cb hacyc rn
      simp only [summMeasure, List.map_cons, List.sum_cons] at hm
      omega
  | succ fuel ih =>
    intro ing stack hm
    cases stack with
    | nil => simp [summarizeLoop]
    | cons rn rest =>
      unfold summarizeLoop
      rcases hg : jsGet cb rn with _ | e
      · simp
      · cases e with
        | ingredient ct =>
          simp only []
          apply ih ing rest
          have h1 := twt_pos cb hacyc rn
          simp only [summMeasure, List.map_cons, List.sum_cons] at hm ⊢
          omega
        | recipe items =>
          simp only []
          rcases hpr : processItems rn items ⟨cb, ing, rest⟩ with e' | st'
          · simp
          · obtain ⟨cb2, ing2, stack2⟩ := st'
            obtain ⟨hcb2, hms⟩ := processItems_measure hacyc hpr
            simp only at hcb2 hms
            rw [hcb2]
            apply ih (jsDel ing2 rn) stack2
            have htw : twt cb hacyc rn =
                1 + (items.map (fun it => twt cb hacyc it.name)).sum :=
              twt_recipe cb hacyc hg
            simp only [summMeasure, List.map_cons, List.sum_cons] at hm hms ⊢
            omega

theorem summarize_total {cb : Cookbook} (hacyc : Acyclic cb) (name : String) :
    ∃ fuel r, summarize cb fuel name = some r := by
  by_cases h1 : name = "" ∨ ¬ jsHas cb name
  · exact ⟨0, (Except.error SummErr.notFound, cb), by unfold summarize; rw [if_pos h1]⟩
  · push_neg at h1
    obtain ⟨hname, hhas⟩ := h1
    obtain ⟨e, hget⟩ := Option.isSome_iff_exists.mp (by simpa using hhas)
    cases e with
    | ingredient ct =>
      refine ⟨0, (Except.error SummErr.notARecipe, cb), ?_⟩
      unfold summarize
      rw [if_neg (by simp [hname, hhas])]
      simp [hget]
    | recipe reqs =>
      have htot := summarizeLoop_total hacyc (summMeasure cb hacyc [name])
        [(name, 1)] [name] (Nat.le_refl _)
      rcases hsl : summarizeLoop (summMeasure cb hacyc [name]) ⟨cb, [(name, 1)], [name]⟩
        with _ | p
      · exact absurd hsl htot
      · obtain ⟨rr, cb''⟩ := p
        cases rr with
        | error e =>
          refine ⟨summMeasure cb hacyc [name], (Except.error e, cb''), ?_⟩
          unfold summarize
          rw [if_neg (by simp [hname, hhas])]
          simp [hget, hsl]
        | ok ing =>
          refine ⟨summMeasure cb hacyc [name],
            (Except.ok ⟨name, (buildSummary cb'' ing).1, (buildSummary cb'' ing).2⟩, cb''), ?_⟩
          unfold summarize
          rw [if_neg (by simp [hname, hhas])]
          simp [hget, hsl]

/-- Claim C7: on an acyclic catalog, `isReachable` terminates for every
present source (with a boolean result), and the `/summary` expansion
terminates for every name (some fuel suffices). -/
theorem claim_C7 : ∀ cb : Cookbook, Acyclic cb →
    (∀ src dest, jsHas cb src = true →
      ∃ fuel b, isReachable cb fuel src dest = Res.ok b) ∧
    (∀ name, ∃ fuel r, summarize cb fuel name = some r) :=
  fun cb hacyc =>
    ⟨fun src dest hhas => isReachable_total hacyc src dest hhas,
      fun name => summarize_total hacyc name⟩

/-- Acyclicity of the concrete one-recipe catalog used by witnesses. -/
theorem acyclic_single_recipe : Acyclic [("r", Entry.recipe [⟨"m", 1⟩])] := by
  have hedge : ∀ a b, edgeTo [("r", Entry.recipe [⟨"m", 1⟩])] a b → a = "r" ∧ b = "m" := by
    intro a b ⟨reqs, hget, hmem⟩
    have hmem2 := mem_of_jsGet_eq_some hget
    simp only [List.mem_singleton, Prod.mk.injEq] at hmem2
    obtain ⟨ha, hreqs⟩ := hmem2
    injection hreqs with hreqs'
    subst hreqs'
    simp only [List.map_cons, List.map_nil, List.mem_singleton] at hmem
    exact ⟨ha, hmem⟩
  intro a ha
  obtain ⟨b, hab, hba⟩ := Relation.TransGen.head'_iff.mp ha
  obtain ⟨ha', hb⟩ := hedge a b hab
  subst ha'
  subst hb
  rcases Relation.reflTransGen_iff_eq_or_transGen.mp hba with heq | htr
  · exact absurd heq (by decide)
  · obtain ⟨c, hmc, _⟩ := Relation.TransGen.head'_iff.mp htr
    obtain ⟨hm, _⟩ := hedge "m" c hmc
    exact absurd hm (by decide)

/-- Witness for C7 on the concrete acyclic catalog `r → m`. -/
theorem claim_C7_witness :
    (∃ fuel b, isReachable [("r", Entry.recipe [⟨"m", 1⟩])] fuel "r" "m" = Res.ok b) ∧
    (∃ fuel r, summarize [("r", Entry.recipe [⟨"m", 1⟩])] fuel "r" = some r) :=
  ⟨(claim_C7 _ acyclic_single_recipe).1 "r" "m" (by decide),
    (claim_C7 _ acyclic_single_recipe).2 "r"⟩

/-! Claim C5: the error contract of `/summary`. -/

instance exceptDecEq {α β : Type} [DecidableEq α] [DecidableEq β] :
    DecidableEq (Except α β) := fun a b =>
  match a, b with
  | Except.ok x, Except.ok y =>
    if h : x = y then isTrue (by rw [h])
    else isFalse (fun hc => h (by injection hc))
  | Except.error x, Except.error y =>
    if h : x = y then isTrue (by rw [h])
    else isFalse (fun hc => h (by injection hc))
  | Except.ok _, Except.error _ => isFalse (fun hc => by injection hc)
  | Except.error _, Except.ok _ => isFalse (fun hc => by injection hc)

/-- The failure mode of `/summary` on some sufficient fuel. -/
def FailsWith (cb : Cookbook) (name : String) (e : SummErr) : Prop :=
  ∃ fuel cb', summarize cb fuel name = some (Except.error e, cb')

/-- Claim C5 exactly as stated: for every catalog, `Summarize(name)`
fails with `NotFound` if the name is absent, fails with `NotARecipe` if it
resolves to an ingredient, and, when it resolves to a recipe, fails with
`DanglingReference` (a required-name-not-found error) if some transitively
required name is absent. -/
def ClaimC5Statement : Prop :=
  ∀ (cb : Cookbook) (name : String),
    (jsHas cb name = false → FailsWith cb name SummErr.notFound) ∧
    (∀ ct, jsGet cb name = some (Entry.ingredient ct) →
      FailsWith cb name SummErr.notARecipe) ∧
    (∀ reqs, jsGet cb name = some (Entry.recipe reqs) →
      (∃ m, Relation.TransGen (edgeTo cb) name m ∧ jsHas cb m = false) →
      ∃ n, FailsWith cb name (SummErr.requiredNotFound n))

/-- Non-termination of `/summary` on a name: every fuel is exhausted. -/
def SummarizeDiverges (cb : Cookbook) (name : String) : Prop :=
  ∀ fuel, summarize cb fuel name = none

/-- A cyclic catalog (not insertable through `/entry`, but a `Map` state
allowed by the claim's quantification over every catalog): `R` requires
`D` and `A`, `A` requires itself, `D` requires the absent `M`. -/
def cbCyc : Cookbook :=
  [("R", Entry.recipe [⟨"D", 1⟩, ⟨"A", 1⟩]), ("A", Entry.recipe [⟨"A", 1⟩]),
   ("D", Entry.recipe [⟨"M", 1⟩])]

theorem processItems_err_form {rn : String} {items : List RequiredItem} {st : SumSt}
    {e : SummErr} (h : processItems rn items st = Except.error e) :
    ∃ n, e = SummErr.requiredNotFound n := by
  induction items generalizing st with
  | nil => cases h
  | cons it rest ih =>
    unfold processItems at h
    by_cases hh : ¬ jsHas st.cb it.name
    · rw [if_pos hh] at h
      injection h with h'
      exact ⟨it.name, h'.symm⟩
    · rw [if_neg hh] at h
      exact ih h

theorem processItems_stack_inv {rn : String} {items : List RequiredItem} {st st' : SumSt}
    (h : processItems rn items st = Except.ok st') :
    (∀ x ∈ st.stack, x ∈ st'.stack) ∧
    (∀ it ∈ items, it.name ∈ st'.stack ∧ jsHas st.cb it.name = true) ∧
    (∀ x ∈ st'.stack, x ∈ st.stack ∨ ∃ it ∈ items, x = it.name) := by
  induction items generalizing st with
  | nil =>
    simp only [processItems, Except.ok.injEq] at h
    subst h
    exact ⟨fun x hx => hx, by simp, fun x hx => Or.inl hx⟩
  | cons it rest ih =>
    unfold processItems at h
    by_cases hh : ¬ jsHas st.cb it.name
    · rw [if_pos hh] at h; cases h
    · rw [if_neg hh] at h
      have hhas : jsHas st.cb it.name = true := by
        by_cases hb : jsHas st.cb it.name = true
        · exact hb
        · exact absurd (by simpa using hb) hh
      obtain ⟨hA, hB, hC⟩ := ih h
      refine ⟨?_, ?_, ?_⟩
      · intro x hx
        exact hA x (List.mem_cons_of_mem it.name hx)
      · intro x hx
        rcases List.mem_cons.mp hx with heq | hx'
        · subst heq
          exact ⟨hA x.name (List.mem_cons_self x.name st.stack), hhas⟩
        · exact ⟨(hB x hx').1, (hB x hx').2⟩
      · intro x hx
        rcases hC x hx with hx' | ⟨it2, hit2, heq⟩
        · rcases List.mem_cons.mp hx' with heq | hx''
          · exact Or.inr ⟨it, List.mem_cons_self it rest, heq⟩
          · exact Or.inl hx''
        · exact Or.inr ⟨it2, List.mem_cons_of_mem it hit2, heq⟩

theorem summarizeLoop_ok_reaches {fuel : Nat} {st : SumSt}
    {ing' : List (String × ℤ)} {cb' : Cookbook}
    (h : summarizeLoop fuel st = some (Except.ok ing', cb')) :
    ∀ x ∈ st.stack, ∀ m, Relation.TransGen (edgeTo st.cb) x m → jsHas st.cb m = true := by
  induction fuel generalizing st with
  | zero =>
    obtain ⟨cb, ing, stack⟩ := st
    cases stack with
    | nil => intro x hx; exact absurd hx (List.not_mem_nil x)
    | cons rn rest => cases h
  | succ fuel ih =>
    obtain ⟨cb, ing, stack⟩ := st
    cases stack with
    | nil => intro x hx; exact absurd hx (List.not_mem_nil x)
    | cons rn rest =>
      unfold summarizeLoop at h
      rcases hg : jsGet cb rn with _ | e
      · simp only [hg] at h
        simp at h
      · cases e with
        | ingredient ct =>
          simp only [hg] at h
          have hih := ih h
          intro x hx m htr
          rcases List.mem_cons.mp hx with heq | hx'
          · subst heq
            obtain ⟨reqs0, hget0, _⟩ := transGen_edgeTo_headProps htr
            simp only at hget0
            rw [hg] at hget0
            cases hget0
          · exact hih x hx' m htr
        | recipe items =>
          simp only [hg] at h
          rcases hp : processItems rn items ⟨cb, ing, rest⟩ with e' | st'
          · simp only [hp] at h
            simp at h
          · simp only [hp] at h
            have hcb' : st'.cb = cb := processItems_ok_cb hp
            have hih := ih h
            rw [hcb'] at hih
            obtain ⟨hA, hB, _⟩ := processItems_stack_inv hp
            intro x hx m htr
            rcases List.mem_cons.mp hx with heq | hx'
            · subst heq
              obtain ⟨y, hedge, hy⟩ := Relation.TransGen.head'_iff.mp htr
              obtain ⟨reqs0, hget0, hmem0⟩ := hedge
              simp only at hget0
              rw [hg] at hget0
              injection hget0 with hget0'
              injection hget0' with hget0''
              subst hget0''
              obtain ⟨it, hit, hitname⟩ := List.mem_map.mp hmem0
              obtain ⟨hstk, hhs⟩ := hB it hit
              rcases Relation.reflTransGen_iff_eq_or_transGen.mp hy with heq2 | htr2
              · rw [heq2, ← hitname]
                exact hhs
              · exact hih y (hitname ▸ hstk) m htr2
            · exact hih x (hA x hx') m htr

theorem summarizeLoop_stack_has {fuel : Nat} {st : SumSt} {n : String} {cb' : Cookbook}
    (hstack : ∀ x ∈ st.stack, jsHas st.cb x = true) :
    summarizeLoop fuel st ≠ some (Except.error (SummErr.recipeNotFound n), cb') := by
  induction fuel generalizing st with
  | zero =>
    obtain ⟨cb, ing, stack⟩ := st
    cases stack with
    | nil => simp [summarizeLoop]
    | cons rn rest => simp [summarizeLoop]
  | succ fuel ih =>
    obtain ⟨cb, ing, stack⟩ := st
    cases stack with
    | nil => simp [summarizeLoop]
    | cons rn rest =>
      unfold summarizeLoop
      rcases hg : jsGet cb rn with _ | e
      · have hrn : jsHas cb rn = true := hstack rn (List.mem_cons_self rn rest)
        unfold jsHas at hrn
        rw [hg] at hrn
        cases hrn
      · cases e with
        | ingredient ct =>
          exact ih (fun x hx => hstack x (List.mem_cons_of_mem rn hx))
        | recipe items =>
          simp only []
          rcases hp : processItems rn items ⟨cb, ing, rest⟩ with e' | st'
          · obtain ⟨n', rfl⟩ := processItems_err_form hp
            simp
          · have hcb' : st'.cb = cb := processItems_ok_cb hp
            obtain ⟨_, hB, hC⟩ := processItems_stack_inv hp
            apply ih
            intro x hx
            rw [hcb']
            rcases hC x hx with hx' | ⟨it, hit, heq⟩
            · exact hstack x (List.mem_cons_of_mem rn hx')
            · exact heq ▸ (hB it hit).2

theorem summarizeLoop_err_form {fuel : Nat} {st : SumSt} {e : SummErr} {cb' : Cookbook}
    (h : summarizeLoop fuel st = some (Except.error e, cb')) :
    (∃ n, e = SummErr.recipeNotFound n) ∨ (∃ n, e = SummErr.requiredNotFound n) := by
  induction fuel generalizing st with
  | zero =>
    obtain ⟨cb, ing, stack⟩ := st
    cases stack with
    | nil => simp [summarizeLoop] at h
    | cons rn rest => cases h
  | succ fuel ih =>
    obtain ⟨cb, ing, stack⟩ := st
    cases stack with
    | nil => simp [summarizeLoop] at h
    | cons rn rest =>
      unfold summarizeLoop at h
      rcases hg : jsGet cb rn with _ | e2
      · simp only [hg, Option.some.injEq, Prod.mk.injEq] at h
        exact Or.inl ⟨rn, by injection h.1 with h2; exact h2.symm⟩
      · cases e2 with
        | ingredient ct =>
          simp only [hg] at h
          exact ih h
        | recipe items =>
          simp only [hg] at h
          rcases hp : processItems rn items ⟨cb, ing, rest⟩ with e' | st'
          · simp only [hp, Option.some.injEq, Prod.mk.injEq] at h
            obtain ⟨n', hform⟩ := processItems_err_form hp
            exact Or.inr ⟨n', by injection h.1 with h2; rw [← h2, hform]⟩
          · simp only [hp] at h
            exact ih h

theorem summarizeLoop_succ_recipe {cb : Cookbook} {ing : List (String × ℤ)}
    {rn : String} {rest : List String} {items : List RequiredItem} {st' : SumSt} (f : Nat)
    (hg : jsGet cb rn = some (Entry.recipe items))
    (hp : processItems rn items ⟨cb, ing, rest⟩ = Except.ok st') :
    summarizeLoop (f + 1) ⟨cb, ing, rn :: rest⟩ =
      summarizeLoop f ⟨st'.cb, jsDel st'.ingredients rn, st'.stack⟩ := by
  conv_lhs => rw [summarizeLoop]
  simp only [hg, hp]

theorem cycStep1 (f : Nat) : summarizeLoop (f + 1) ⟨cbCyc, [("R", 1)], ["R"]⟩ =
    summarizeLoop f ⟨cbCyc, [("D", 1), ("A", 1)], ["A", "D"]⟩ := by
  rw [summarizeLoop_succ_recipe f
    (show jsGet cbCyc "R" = some (Entry.recipe [⟨"D", 1⟩, ⟨"A", 1⟩]) from rfl)
    (show processItems "R" [⟨"D", 1⟩, ⟨"A", 1⟩] ⟨cbCyc, [("R", 1)], []⟩ =
      Except.ok ⟨cbCyc, [("R", 1), ("D", 1), ("A", 1)], ["A", "D"]⟩ from by decide)]
  rw [show jsDel [("R", (1 : ℤ)), ("D", 1), ("A", 1)] "R" = [("D", 1), ("A", 1)] from by decide]

theorem cycStep2 (f : Nat) : summarizeLoop (f + 1) ⟨cbCyc, [("D", 1), ("A", 1)], ["A", "D"]⟩ =
    summarizeLoop f ⟨cbCyc, [("D", 1)], ["A", "D"]⟩ := by
  rw [summarizeLoop_succ_recipe f
    (show jsGet cbCyc "A" = some (Entry.recipe [⟨"A", 1⟩]) from rfl)
    (show processItems "A" [⟨"A", 1⟩] ⟨cbCyc, [("D", 1), ("A", 1)], ["D"]⟩ =
      Except.ok ⟨cbCyc, [("D", 1), ("A", 2)], ["A", "D"]⟩ from by decide)]
  rw [show jsDel [("D", (1 : ℤ)), ("A", 2)] "A" = [("D", 1)] from by decide]

theorem cycStep3 (f : Nat) : summarizeLoop (f + 1) ⟨cbCyc, [("D", 1)], ["A", "D"]⟩ =
    summarizeLoop f ⟨cbCyc, [("D", 1)], ["A", "D"]⟩ := by
  rw [summarizeLoop_succ_recipe f
    (show jsGet cbCyc "A" = some (Entry.recipe [⟨"A", 1⟩]) from rfl)
    (show processItems "A" [⟨"A", 1⟩] ⟨cbCyc, [("D", 1)], ["D"]⟩ =
      Except.ok ⟨cbCyc, [("D", 1), ("A", 1)], ["A", "D"]⟩ from by decide)]
  rw [show jsDel [("D", (1 : ℤ)), ("A", 1)] "A" = [("D", 1)] from by decide]

theorem cycFix : ∀ f, summarizeLoop f ⟨cbCyc, [("D", 1)], ["A", "D"]⟩ = none := by
  intro f
  induction f with
  | zero => rfl
  | succ f ih => rw [cycStep3 f]; exact ih

theorem cycDiv : ∀ f, summarizeLoop f ⟨cbCyc, [("R", 1)], ["R"]⟩ = none := by
  intro f
  cases f with
  | zero => rfl
  | succ f1 =>
    rw [cycStep1 f1]
    cases f1 with
    | zero => rfl
    | succ f2 =>
      rw [cycStep2 f2]
      exact cycFix f2

/-- Counterexample for claim C5 as stated.  First, on the catalog holding
the empty name as an ingredient, `/summary` of `""` answers the not-found
error (the falsy check `!name` fires first), not the not-a-recipe error
the claim requires.  Second, on a cyclic catalog (a catalog the claim's
unrestricted quantification admits), `/summary` of `R` loops forever even
though `R` transitively requires the absent name `M`, so no
dangling-reference failure is ever reported. -/
theorem claim_C5_counterexample :
    ¬ ClaimC5Statement ∧
    SummarizeDiverges cbCyc "R" ∧
    jsGet cbCyc "R" = some (Entry.recipe [⟨"D", 1⟩, ⟨"A", 1⟩]) ∧
    Relation.TransGen (edgeTo cbCyc) "R" "M" ∧ jsHas cbCyc "M" = false := by
  refine ⟨?_, ?_, rfl, ?_, by decide⟩
  · intro h
    obtain ⟨fuel, cb', hs⟩ := (h [("", Entry.ingredient 1)] "").2.1 1 rfl
    have hnf : summarize [("", Entry.ingredient 1)] fuel "" =
        some (Except.error SummErr.notFound, [("", Entry.ingredient 1)]) := by
      unfold summarize
      rw [if_pos (Or.inl rfl)]
    rw [hnf] at hs
    simp at hs
  · intro fuel
    unfold summarize
    rw [if_neg (by decide)]
    simp only [show jsGet cbCyc "R" = some (Entry.recipe [⟨"D", 1⟩, ⟨"A", 1⟩]) from rfl]
    rw [cycDiv fuel]
  · exact Relation.TransGen.head
      (show edgeTo cbCyc "R" "D" from ⟨[⟨"D", 1⟩, ⟨"A", 1⟩], rfl, by decide⟩)
      (Relation.TransGen.single
        (show edgeTo cbCyc "D" "M" from ⟨[⟨"M", 1⟩], rfl, by decide⟩))

/-- Claim C5 as amended: the not-found error also covers the empty name
(the source's falsy check), the not-a-recipe error requires a non-empty
name, and the dangling-reference guarantee holds on acyclic catalogs (the
invariant every reachable catalog satisfies; on a cyclic catalog the
expansion can loop forever instead). -/
theorem claim_C5 :
    ∀ (cb : Cookbook) (name : String),
      ((name = "" ∨ jsHas cb name = false) → ∀ fuel,
        summarize cb fuel name = some (Except.error SummErr.notFound, cb)) ∧
      (name ≠ "" → ∀ ct, jsGet cb name = some (Entry.ingredient ct) → ∀ fuel,
        summarize cb fuel name = some (Except.error SummErr.notARecipe, cb)) ∧
      (name ≠ "" → ∀ reqs, jsGet cb name = some (Entry.recipe reqs) → Acyclic cb →
        (∃ m, Relation.TransGen (edgeTo cb) name m ∧ jsHas cb m = false) →
        ∃ fuel n, summarize cb fuel name =
          some (Except.error (SummErr.requiredNotFound n), cb)) := by
  intro cb name
  refine ⟨?_, ?_, ?_⟩
  · intro h1 fuel
    unfold summarize
    rcases h1 with h1 | h1
    · rw [if_pos (Or.inl h1)]
    · rw [if_pos (Or.inr (by simp [h1]))]
  · intro hname ct hget fuel
    unfold summarize
    rw [if_neg (by simp [hname, jsHas_of_jsGet_eq_some hget])]
    simp [hget]
  · rintro hname reqs hget hacyc ⟨m, htr, hmabs⟩
    have hhas : jsHas cb name = true := jsHas_of_jsGet_eq_some hget
    have htot := summarizeLoop_total hacyc (summMeasure cb hacyc [name])
      [(name, 1)] [name] (Nat.le_refl _)
    rcases hsl : summarizeLoop (summMeasure cb hacyc [name]) ⟨cb, [(name, 1)], [name]⟩
      with _ | ⟨res, cb2⟩
    · exact absurd hsl htot
    · have hcb2 : cb2 = cb := summarizeLoop_cb hsl
      rw [hcb2] at hsl
      cases res with
      | ok ing' =>
        exfalso
        have hgot : jsHas cb m = true :=
          summarizeLoop_ok_reaches hsl name (List.mem_cons_self name []) m htr
        rw [hmabs] at hgot
        cases hgot
      | error e =>
        rcases summarizeLoop_err_form hsl with ⟨n, rfl⟩ | ⟨n, rfl⟩
        · exact absurd hsl (summarizeLoop_stack_has (by
            intro x hx
            have hx' : x = name := by simpa using hx
            rw [hx']
            exact hhas))
        · refine ⟨summMeasure cb hacyc [name], n, ?_⟩
          unfold summarize
          rw [if_neg (by simp [hname, hhas])]
          simp [hget, hsl]

/-- Witness for the amended C5: on the acyclic catalog `r → m` with `m`
absent, `/summary` of `r` reports the dangling-reference error. -/
theorem claim_C5_witness :
    ∃ fuel n, summarize [("r", Entry.recipe [⟨"m", 1⟩])] fuel "r" =
      some (Except.error (SummErr.requiredNotFound n), [("r", Entry.recipe [⟨"m", 1⟩])]) :=
  (claim_C5 [("r", Entry.recipe [⟨"m", 1⟩])] "r").2.2 (by decide) [⟨"m", 1⟩] rfl
    acyclic_single_recipe
    ⟨"m", Relation.TransGen.single ⟨[⟨"m", 1⟩], rfl, by decide⟩, by decide⟩

/-! Claim C1: the weighted expansion of `/summary`. -/

/-- A catalog with a shared sub-recipe reached by a direct edge and an
indirect one: `r` requires `s` and `c`, `c` requires `s`, `s` requires the
leaf `l`.  It is buildable through `/entry` (see `claim_C1`). -/
def cbShared : Cookbook :=
  [("l", Entry.ingredient 1), ("s", Entry.recipe [⟨"l", 1⟩]),
   ("c", Entry.recipe [⟨"s", 1⟩]), ("r", Entry.recipe [⟨"s", 1⟩, ⟨"c", 1⟩])]

/-- Modelled from the spec: the accumulated quantity of `leaf` in the
expansion of `cur` with incoming multiplier `mult` — quantities are
multiplied along each requirement chain and contributions of distinct
paths are summed.  The fuel bounds the recursion depth; any fuel larger
than the longest requirement chain gives the specified value. -/
def specLeafQuantity (cb : Cookbook) : Nat → ℤ → String → String → ℤ
  | 0, _, _, _ => 0
  | fuel + 1, mult, cur, leaf =>
    match jsGet cb cur with
    | some (Entry.recipe reqs) =>
      (reqs.map (fun it =>
        specLeafQuantity cb fuel (mult * it.quantity) it.name leaf)).sum
    | some (Entry.ingredient _) => if cur = leaf then mult else 0
    | none => 0

/-- Claim C1 is a code bug: `cbShared` is reachable through `/entry` (the
four insertions below succeed), its requirement graph is acyclic and every
transitively required name is present, yet `/summary` of `r` reports the
leaf quantity 3 and cost 3, while the accumulated quantity prescribed by
the specification (sum over paths of products of quantities) is 2: the
expansion pops the shared sub-recipe `s` a second time after deleting its
accumulator entry, and `ingredients.get(recipeName) || 1` then defaults
the multiplier to 1, double-counting the direct `r → s` contribution. -/
theorem claim_C1 :
    addEntry [] 9 ⟨"ingredient", "l", 1, []⟩ =
      Res.ok (Except.ok (), [("l", Entry.ingredient 1)]) ∧
    addEntry [("l", Entry.ingredient 1)] 9 ⟨"recipe", "s", 0, [⟨"l", 1⟩]⟩ =
      Res.ok (Except.ok (), [("l", Entry.ingredient 1), ("s", Entry.recipe [⟨"l", 1⟩])]) ∧
    addEntry [("l", Entry.ingredient 1), ("s", Entry.recipe [⟨"l", 1⟩])] 9
        ⟨"recipe", "c", 0, [⟨"s", 1⟩]⟩ =
      Res.ok (Except.ok (), [("l", Entry.ingredient 1), ("s", Entry.recipe [⟨"l", 1⟩]),
        ("c", Entry.recipe [⟨"s", 1⟩])]) ∧
    addEntry [("l", Entry.ingredient 1), ("s", Entry.recipe [⟨"l", 1⟩]),
        ("c", Entry.recipe [⟨"s", 1⟩])] 9 ⟨"recipe", "r", 0, [⟨"s", 1⟩, ⟨"c", 1⟩]⟩ =
      Res.ok (Except.ok (), cbShared) ∧
    Acyclic cbShared ∧
    summarize cbShared 20 "r" = some (Except.ok ⟨"r", 3, [("l", 3)]⟩, cbShared) ∧
    specLeafQuantity cbShared 20 1 "r" "l" = 2 := by
  have h1 : addEntry [] 9 ⟨"ingredient", "l", 1, []⟩ =
      Res.ok (Except.ok (), [("l", Entry.ingredient 1)]) := by decide
  have h2 : addEntry [("l", Entry.ingredient 1)] 9 ⟨"recipe", "s", 0, [⟨"l", 1⟩]⟩ =
      Res.ok (Except.ok (), [("l", Entry.ingredient 1),
        ("s", Entry.recipe [⟨"l", 1⟩])]) := by decide
  have h3 : addEntry [("l", Entry.ingredient 1), ("s", Entry.recipe [⟨"l", 1⟩])] 9
      ⟨"recipe", "c", 0, [⟨"s", 1⟩]⟩ =
      Res.ok (Except.ok (), [("l", Entry.ingredient 1), ("s", Entry.recipe [⟨"l", 1⟩]),
        ("c", Entry.recipe [⟨"s", 1⟩])]) := by decide
  have h4 : addEntry [("l", Entry.ingredient 1), ("s", Entry.recipe [⟨"l", 1⟩]),
      ("c", Entry.recipe [⟨"s", 1⟩])] 9 ⟨"recipe", "r", 0, [⟨"s", 1⟩, ⟨"c", 1⟩]⟩ =
      Res.ok (Except.ok (), cbShared) := by decide
  refine ⟨h1, h2, h3, h4, ?_, by decide, by decide⟩
  exact reachable_acyclic cbShared
    (ReachableCb.step (ReachableCb.step (ReachableCb.step
      (ReachableCb.step ReachableCb.empty h1) h2) h3) h4)

end Devdonalds

namespace Devdonalds

/-! ASCII character facts used by the `parse_handwriting` proofs. -/

theorem char_le_iff {a b : Char} : a ≤ b ↔ a.toNat ≤ b.toNat := by
  rw [Char.le_def, UInt32.le_def, BitVec.le_def]
  exact Iff.rfl

theorem char_eq_iff {a b : Char} : a = b ↔ a.toNat = b.toNat := by
  constructor
  · intro h; rw [h]
  · intro h
    exact Char.eq_of_val_eq (UInt32.toNat.inj h)

theorem toNat_ofNat_valid {n : Nat} (h : n < 55296) : (Char.ofNat n).toNat = n := by
  rw [Char.ofNat, dif_pos (show n.isValidChar from Or.inl h)]
  simp [Char.ofNatAux, Char.toNat, UInt32.toNat]

theorem isLowerChar_iff {c : Char} :
    isLowerChar c = true ↔ 97 ≤ c.toNat ∧ c.toNat ≤ 122 := by
  simp [isLowerChar, char_le_iff]

theorem isUpperChar_iff {c : Char} :
    isUpperChar c = true ↔ 65 ≤ c.toNat ∧ c.toNat ≤ 90 := by
  simp [isUpperChar, char_le_iff]

theorem isAsciiLetter_iff {c : Char} :
    isAsciiLetter c = true ↔
      (97 ≤ c.toNat ∧ c.toNat ≤ 122) ∨ (65 ≤ c.toNat ∧ c.toNat ≤ 90) := by
  simp [isAsciiLetter, char_le_iff]

theorem lowerA_toNat_of_upper {c : Char} (h : 65 ≤ c.toNat ∧ c.toNat ≤ 90) :
    (lowerA c).toNat = c.toNat + 32 := by
  have hA : 'A' ≤ c := char_le_iff.mpr h.1
  have hZ : c ≤ 'Z' := char_le_iff.mpr h.2
  unfold lowerA
  rw [if_pos ⟨hA, hZ⟩]
  exact toNat_ofNat_valid (by omega)

theorem lowerA_eq_self {c : Char} (h : ¬(65 ≤ c.toNat ∧ c.toNat ≤ 90)) :
    lowerA c = c := by
  unfold lowerA
  rw [if_neg]
  intro hc
  exact h ⟨char_le_iff.mp hc.1, char_le_iff.mp hc.2⟩

theorem upperA_toNat_of_lower {c : Char} (h : 97 ≤ c.toNat ∧ c.toNat ≤ 122) :
    (upperA c).toNat = c.toNat - 32 := by
  have ha : 'a' ≤ c := char_le_iff.mpr h.1
  have hz : c ≤ 'z' := char_le_iff.mpr h.2
  unfold upperA
  rw [if_pos ⟨ha, hz⟩]
  exact toNat_ofNat_valid (by omega)

theorem lower_isAsciiLetter {c : Char} (h : isLowerChar c = true) :
    isAsciiLetter c = true :=
  isAsciiLetter_iff.mpr (Or.inl (isLowerChar_iff.mp h))

theorem lowerA_of_lower {c : Char} (h : isLowerChar c = true) : lowerA c = c :=
  lowerA_eq_self (by have := isLowerChar_iff.mp h; omega)

theorem lowerA_lower_of_letter {c : Char} (h : isAsciiLetter c = true) :
    isLowerChar (lowerA c) = true := by
  rcases isAsciiLetter_iff.mp h with h2 | h2
  · rw [lowerA_eq_self (by omega)]
    exact isLowerChar_iff.mpr h2
  · rw [isLowerChar_iff, lowerA_toNat_of_upper h2]
    omega

theorem isAsciiLetter_lowerA (c : Char) :
    isAsciiLetter (lowerA c) = isAsciiLetter c := by
  by_cases h : isAsciiLetter c = true
  · rw [h, lower_isAsciiLetter (lowerA_lower_of_letter h)]
  · have h2 : ¬(65 ≤ c.toNat ∧ c.toNat ≤ 90) := fun hc =>
      h (isAsciiLetter_iff.mpr (Or.inr hc))
    rw [lowerA_eq_self h2]

theorem upperA_upper_of_lower {c : Char} (h : isLowerChar c = true) :
    isUpperChar (upperA c) = true := by
  have h2 := isLowerChar_iff.mp h
  rw [isUpperChar_iff, upperA_toNat_of_lower h2]
  omega

theorem lowerA_upperA {c : Char} (h : isLowerChar c = true) :
    lowerA (upperA c) = c := by
  have h2 := isLowerChar_iff.mp h
  have h3 := upperA_toNat_of_lower h2
  rw [char_eq_iff, lowerA_toNat_of_upper (by rw [h3]; omega), h3]
  omega

theorem lowerA_idem (c : Char) : lowerA (lowerA c) = lowerA c := by
  by_cases h : 65 ≤ c.toNat ∧ c.toNat ≤ 90
  · have h4 := lowerA_toNat_of_upper h
    exact lowerA_eq_self (by omega)
  · rw [lowerA_eq_self h]
    exact lowerA_eq_self h

theorem lower_ne_space {c : Char} (h : isLowerChar c = true) : (c == ' ') = false := by
  rw [beq_eq_false_iff_ne]
  intro hc
  subst hc
  exact absurd h (by decide)

theorem upper_ne_space {c : Char} (h : isUpperChar c = true) : (c == ' ') = false := by
  rw [beq_eq_false_iff_ne]
  intro hc
  subst hc
  exact absurd h (by decide)

theorem sep_not_letter {c : Char} (h : isSepChar c = true) : isAsciiLetter c = false := by
  unfold isSepChar at h
  simp only [Bool.or_eq_true, beq_iff_eq] at h
  rcases h with (h | h) | h <;> subst h <;> decide

theorem wordChar_of_lower {c : Char} (h : isLowerChar c = true) :
    isWordChar c = true := by
  unfold isWordChar
  rw [lower_isAsciiLetter h]
  rfl

end Devdonalds

namespace Devdonalds

/-! List-level lemmas for `parse_handwriting`. -/

theorem titleGo_cons (b : Bool) (c : Char) (cs : List Char) :
    titleGo b (c :: cs) =
      if isAsciiLetter c && !b then upperA c :: titleGo true cs
      else c :: titleGo (isWordChar c) cs := rfl

theorem fmtGo_start0_cons (m : Bool) (c : Char) (cs : List Char) :
    fmtGo m FmtSt.start0 (c :: cs) = (isUpperChar c && fmtGo m FmtSt.inWord cs) := rfl

theorem fmtGo_afterSpace_cons (m : Bool) (c : Char) (cs : List Char) :
    fmtGo m FmtSt.afterSpace (c :: cs) =
      if m && c == ' ' then fmtGo m FmtSt.afterSpace cs
      else isUpperChar c && fmtGo m FmtSt.inWord cs := rfl

theorem fmtGo_inWord_cons (m : Bool) (c : Char) (cs : List Char) :
    fmtGo m FmtSt.inWord (c :: cs) =
      if c == ' ' then fmtGo m FmtSt.afterSpace cs
      else isLowerChar c && fmtGo m FmtSt.inWord cs := rfl

theorem collapse_filter_letters : ∀ (b : Bool) (l : List Char),
    (collapseGo b l).filter isAsciiLetter = l.filter isAsciiLetter := by
  intro b l
  induction l generalizing b with
  | nil => rfl
  | cons c cs ih =>
    unfold collapseGo
    by_cases hsep : isSepChar c = true
    · rw [if_pos hsep]
      have hcl : isAsciiLetter c = false := sep_not_letter hsep
      have hsp : isAsciiLetter ' ' = false := by decide
      cases b
      · simp only [Bool.false_eq_true, if_false]
        rw [List.filter_cons_of_neg (by simp [hsp]), ih true,
          List.filter_cons_of_neg (by simp [hcl])]
      · simp only [if_true]
        rw [ih true, List.filter_cons_of_neg (by simp [hcl])]
    · rw [if_neg hsep]
      by_cases hc : isAsciiLetter c = true
      · rw [List.filter_cons_of_pos hc, ih false, List.filter_cons_of_pos hc]
      · rw [List.filter_cons_of_neg (by simp [hc]), ih false,
          List.filter_cons_of_neg (by simp [hc])]

theorem s2_chars {l : List Char} :
    ∀ c ∈ (l.filter keepChar).map lowerA, c = ' ' ∨ isLowerChar c = true := by
  intro c hc
  obtain ⟨d, hd, rfl⟩ := List.mem_map.mp hc
  have hk := (List.mem_filter.mp hd).2
  unfold keepChar at hk
  simp only [Bool.or_eq_true, beq_iff_eq] at hk
  rcases hk with hk | hk
  · exact Or.inr (lowerA_lower_of_letter hk)
  · subst hk
    exact Or.inl (by decide)

theorem pipeline_filter_letters (l : List Char) :
    (((collapseGo false l).filter keepChar).map lowerA).filter isAsciiLetter =
      (l.filter isAsciiLetter).map lowerA := by
  rw [List.filter_map]
  have h1 : (isAsciiLetter ∘ lowerA) = isAsciiLetter := by
    funext c
    exact isAsciiLetter_lowerA c
  rw [h1, List.filter_filter]
  have h2 : (fun a => isAsciiLetter a && keepChar a) = isAsciiLetter := by
    funext c
    by_cases hc : isAsciiLetter c = true
    · rw [hc]
      unfold keepChar
      rw [hc]
      rfl
    · rw [Bool.eq_false_iff.mpr hc]
      rfl
  rw [h2, collapse_filter_letters]

theorem dropWhile_space_filter_letters (l : List Char) :
    (l.dropWhile (· == ' ')).filter isAsciiLetter = l.filter isAsciiLetter := by
  induction l with
  | nil => rfl
  | cons c cs ih =>
    rw [List.dropWhile_cons]
    by_cases hc : (c == ' ') = true
    · simp only [hc, if_true]
      rw [ih, List.filter_cons_of_neg (by rw [beq_iff_eq] at hc; subst hc; decide)]
    · simp only [hc, Bool.false_eq_true, if_false]

theorem trim_filter_letters (l : List Char) :
    (trimChars l).filter isAsciiLetter = l.filter isAsciiLetter := by
  unfold trimChars trimL
  rw [List.filter_reverse, dropWhile_space_filter_letters, List.filter_reverse,
    List.reverse_reverse, dropWhile_space_filter_letters]

theorem mem_trimChars {l : List Char} {c : Char} (h : c ∈ trimChars l) : c ∈ l := by
  unfold trimChars trimL at h
  rw [List.mem_reverse] at h
  have h2 := (List.dropWhile_sublist _).subset h
  rw [List.mem_reverse] at h2
  exact (List.dropWhile_sublist _).subset h2

theorem dropWhile_head_false {p : Char → Bool} :
    ∀ (l : List Char) {c : Char} {cs : List Char},
    l.dropWhile p = c :: cs → p c = false := by
  intro l
  induction l with
  | nil => intro c cs h; cases h
  | cons d ds ih =>
    intro c cs h
    rw [List.dropWhile_cons] at h
    by_cases hd : p d = true
    · rw [if_pos hd] at h
      exact ih h
    · rw [if_neg hd] at h
      injection h with h1 _
      subst h1
      exact Bool.eq_false_iff.mpr hd

theorem trimChars_prefix (l : List Char) : trimChars l <+: trimL l := by
  have h1 : (trimL l).reverse.dropWhile (· == ' ') <:+ (trimL l).reverse :=
    List.dropWhile_suffix _
  have h2 := List.reverse_prefix.mpr h1
  rwa [List.reverse_reverse] at h2

theorem trimChars_head {l : List Char} {c : Char} {cs : List Char}
    (h : trimChars l = c :: cs) : (c == ' ') = false := by
  obtain ⟨rest, hrest⟩ := trimChars_prefix l
  rw [h] at hrest
  have h2 : trimL l = c :: (cs ++ rest) := hrest.symm
  exact @dropWhile_head_false (fun x => x == ' ') l c (cs ++ rest) h2

theorem trimChars_revHead {l : List Char} {c : Char} {cs : List Char}
    (h : (trimChars l).reverse = c :: cs) : (c == ' ') = false := by
  unfold trimChars at h
  rw [List.reverse_reverse] at h
  exact @dropWhile_head_false (fun x => x == ' ') (trimL l).reverse c cs h

theorem titleGo_filter_letters : ∀ (b : Bool) (t : List Char),
    (∀ c ∈ t, c = ' ' ∨ isLowerChar c = true) →
    ((titleGo b t).filter isAsciiLetter).map lowerA =
      (t.filter isAsciiLetter).map lowerA := by
  intro b t
  induction t generalizing b with
  | nil => intro _; rfl
  | cons c cs ih =>
    intro hchars
    have hcs := fun x hx => hchars x (List.mem_cons_of_mem c hx)
    rw [titleGo_cons]
    rcases hchars c (List.mem_cons_self c cs) with hc | hc
    · subst hc
      rw [if_neg (by simp [show isAsciiLetter ' ' = false from rfl])]
      rw [List.filter_cons_of_neg (by decide), List.filter_cons_of_neg (by decide)]
      exact ih _ hcs
    · have hletter := lower_isAsciiLetter hc
      by_cases hb : b = true
      · subst hb
        rw [if_neg (by simp [hletter])]
        rw [List.filter_cons_of_pos hletter, List.filter_cons_of_pos hletter,
          List.map_cons, List.map_cons, ih _ hcs]
      · rw [Bool.eq_false_iff.mpr hb]
        rw [if_pos (by simp [hletter])]
        have hUL : isAsciiLetter (upperA c) = true :=
          isAsciiLetter_iff.mpr (Or.inr (isUpperChar_iff.mp (upperA_upper_of_lower hc)))
        rw [List.filter_cons_of_pos hUL, List.filter_cons_of_pos hletter,
          List.map_cons, List.map_cons, lowerA_upperA hc, lowerA_of_lower hc, ih _ hcs]

theorem fmt_titleGo : ∀ (t : List Char),
    (∀ c ∈ t, c = ' ' ∨ isLowerChar c = true) →
    (∀ c cs, t.reverse = c :: cs → (c == ' ') = false) →
    (fmtGo true FmtSt.afterSpace (titleGo false t) = !t.isEmpty) ∧
    (fmtGo true FmtSt.inWord (titleGo true t) = true) := by
  intro t
  induction t with
  | nil => intro _ _; exact ⟨rfl, rfl⟩
  | cons c cs ih =>
    intro hchars hlast
    have hcs : ∀ x ∈ cs, x = ' ' ∨ isLowerChar x = true :=
      fun x hx => hchars x (List.mem_cons_of_mem c hx)
    have hlcs : ∀ c2 cs2, cs.reverse = c2 :: cs2 → (c2 == ' ') = false := by
      intro c2 cs2 hrev
      exact hlast c2 (cs2 ++ [c]) (by rw [List.reverse_cons, hrev]; rfl)
    have ihx := ih hcs hlcs
    rcases hchars c (List.mem_cons_self c cs) with hsp | hlo
    · subst hsp
      have hcsne : cs ≠ [] := by
        intro hnil
        subst hnil
        exact absurd (hlast ' ' [] rfl) (by decide)
      have hw : isWordChar ' ' = false := rfl
      constructor
      · rw [titleGo_cons, if_neg (by decide), hw, fmtGo_afterSpace_cons,
          if_pos (by decide), ihx.1]
        cases cs with
        | nil => exact absurd rfl hcsne
        | cons d ds => rfl
      · rw [titleGo_cons, if_neg (by decide), hw, fmtGo_inWord_cons,
          if_pos (by decide), ihx.1]
        cases cs with
        | nil => exact absurd rfl hcsne
        | cons d ds => rfl
    · have hletter := lower_isAsciiLetter hlo
      have hwc := wordChar_of_lower hlo
      have hupper := upperA_upper_of_lower hlo
      have hup_ne := upper_ne_space hupper
      have hlo_ne := lower_ne_space hlo
      constructor
      · rw [titleGo_cons, if_pos (by simp [hletter]), fmtGo_afterSpace_cons,
          if_neg (by simp [hup_ne])]
        simp [hupper, ihx.2]
      · rw [titleGo_cons, if_neg (by simp [hletter]), hwc, fmtGo_inWord_cons,
          if_neg (by simp [hlo_ne])]
        simp [hlo, ihx.2]

theorem fmt_start {t : List Char}
    (hne : t ≠ [])
    (hchars : ∀ c ∈ t, c = ' ' ∨ isLowerChar c = true)
    (hhead : ∀ c cs, t = c :: cs → (c == ' ') = false)
    (hlast : ∀ c cs, t.reverse = c :: cs → (c == ' ') = false) :
    fmtGo true FmtSt.start0 (titleGo false t) = true := by
  cases t with
  | nil => exact absurd rfl hne
  | cons c cs =>
    have hcs : ∀ x ∈ cs, x = ' ' ∨ isLowerChar x = true :=
      fun x hx => hchars x (List.mem_cons_of_mem c hx)
    have hlcs : ∀ c2 cs2, cs.reverse = c2 :: cs2 → (c2 == ' ') = false := by
      intro c2 cs2 hrev
      exact hlast c2 (cs2 ++ [c]) (by rw [List.reverse_cons, hrev]; rfl)
    have hlo : isLowerChar c = true := by
      rcases hchars c (List.mem_cons_self c cs) with hsp | hlo
      · exact absurd (hhead c cs rfl) (by rw [hsp]; decide)
      · exact hlo
    have hletter := lower_isAsciiLetter hlo
    rw [titleGo_cons, if_pos (by simp [hletter]), fmtGo_start0_cons]
    simp [upperA_upper_of_lower hlo, (fmt_titleGo cs hcs hlcs).2]

theorem parse_handwriting_eq (s : String) :
    parse_handwriting s =
      (if trimChars (((collapseGo false s.toList).filter keepChar).map lowerA) = []
        then none
        else some (String.mk (titleGo false
          (trimChars (((collapseGo false s.toList).filter keepChar).map lowerA))))) := rfl

end Devdonalds

namespace Devdonalds

/-- C9 (amended): `parse_handwriting` returns `none` exactly when the input
has no ASCII letters; otherwise it returns the input title-cased, with words
separated by one or more spaces (collapsing separators and then stripping
other non-letters can leave adjacent spaces), whose letters are the input's
letters up to case. -/
theorem claim_C9 (s : String) :
    (parse_handwriting s = none ↔ s.toList.filter isAsciiLetter = []) ∧
    ∀ out, parse_handwriting s = some out →
      wordsFormat true out = true ∧
      (out.toList.filter isAsciiLetter).map lowerA =
        (s.toList.filter isAsciiLetter).map lowerA := by
  have hkey : (trimChars (((collapseGo false s.toList).filter keepChar).map
        lowerA)).filter isAsciiLetter = (s.toList.filter isAsciiLetter).map lowerA := by
    rw [trim_filter_letters, pipeline_filter_letters]
  have hchars : ∀ c ∈ trimChars (((collapseGo false s.toList).filter keepChar).map
      lowerA), c = ' ' ∨ isLowerChar c = true :=
    fun c hc => s2_chars c (mem_trimChars hc)
  have hparse := parse_handwriting_eq s
  constructor
  · constructor
    · intro h
      rw [hparse] at h
      by_cases hT : trimChars (((collapseGo false s.toList).filter keepChar).map
          lowerA) = []
      · have h3 : (s.toList.filter isAsciiLetter).map lowerA = [] := by
          rw [← hkey, hT]
          rfl
        cases hl : s.toList.filter isAsciiLetter with
        | nil => rfl
        | cons a as =>
          rw [hl] at h3
          simp at h3
      · rw [if_neg hT] at h
        exact absurd h (Option.some_ne_none _)
    · intro h
      have h2 : (trimChars (((collapseGo false s.toList).filter keepChar).map
          lowerA)).filter isAsciiLetter = [] := by
        rw [hkey, h]
        rfl
      cases hT : trimChars (((collapseGo false s.toList).filter keepChar).map
          lowerA) with
      | nil => rw [hparse, hT]; rfl
      | cons c cs =>
        have hcne := trimChars_head hT
        have hc : c ∈ trimChars (((collapseGo false s.toList).filter keepChar).map
            lowerA) := by
          rw [hT]
          exact List.mem_cons_self c cs
        rcases hchars c hc with hsp | hlo
        · exact absurd hcne (by rw [hsp]; decide)
        · have hmem : c ∈ (trimChars (((collapseGo false s.toList).filter
              keepChar).map lowerA)).filter isAsciiLetter :=
            List.mem_filter.mpr ⟨hc, lower_isAsciiLetter hlo⟩
          rw [h2] at hmem
          exact absurd hmem (List.not_mem_nil c)
  · intro out hout
    rw [hparse] at hout
    by_cases hT : trimChars (((collapseGo false s.toList).filter keepChar).map
        lowerA) = []
    · rw [if_pos hT] at hout
      exact Option.noConfusion hout
    · rw [if_neg hT] at hout
      injection hout with hout
      subst hout
      constructor
      · show fmtGo true FmtSt.start0 (titleGo false (trimChars (((collapseGo false
          s.toList).filter keepChar).map lowerA))) = true
        exact fmt_start hT hchars (fun c cs hcc => trimChars_head hcc)
          (fun c cs hcc => trimChars_revHead hcc)
      · show ((titleGo false (trimChars (((collapseGo false s.toList).filter
          keepChar).map lowerA))).filter isAsciiLetter).map lowerA = _
        rw [titleGo_filter_letters false _ hchars, hkey, List.map_map]
        rw [show lowerA ∘ lowerA = lowerA from funext lowerA_idem]

theorem claim_C9_witness :
    parse_handwriting "los_pollos-hermanos" = some "Los Pollos Hermanos" ∧
    wordsFormat true "Los Pollos Hermanos" = true :=
  ⟨by decide, ((claim_C9 "los_pollos-hermanos").2 "Los Pollos Hermanos" (by decide)).1⟩

theorem claim_C9_counterexample :
    parse_handwriting "a . b" = some "A  B" ∧
    wordsFormat false "A  B" = false ∧
    ¬ ClaimC9Statement := by
  refine ⟨by decide, by decide, fun h => ?_⟩
  have h2 := ((h "a . b").2 "A  B" (by decide)).1
  exact absurd h2 (by decide)

end Devdonalds
